import Mathlib

/-!
Verification of the image-text-enhancement (ITE) pipeline core.

The C++ core works on `CImg` rasters.  The claims under study concern
single-plane (depth 1) images, so an image is embedded as a width, a
height and a total pixel function; samples stored as `double` in the
source are modelled as exact rationals, samples stored in unsigned
integers are modelled as naturals.  Loops over `z` (depth) and `c`
(spectrum) in the source act independently per plane and are embedded
by working on one plane; multi-channel rasters get an explicit channel
dimension.  Routines of the external CImg library itself
(`get_label`, `get_resize`, `get_rotate`, …) are not part of this
repository and are taken as parameters of the embedded functions.
-/

namespace ITE

/-- A single-plane rational-valued image (models `CImg<double>`). -/
structure ImgQ where
  W : ℕ
  H : ℕ
  pix : ℕ → ℕ → ℚ

/-- A single-plane natural-valued image (models `CImg<uint>` /
`CImg<unsigned char>`; samples are 8-bit values 0..255 stored widened). -/
structure ImgN where
  W : ℕ
  H : ℕ
  pix : ℕ → ℕ → ℕ

/-- A multi-channel natural-valued image; `pix x y c` is the sample of
channel `c` at `(x, y)`. -/
structure ImgC where
  W : ℕ
  H : ℕ
  C : ℕ
  pix : ℕ → ℕ → ℕ → ℕ

/-- All samples of the (in-bounds part of the) image are `0` or `255`. -/
def ImgN.Binary (img : ImgN) : Prop :=
  ∀ x < img.W, ∀ y < img.H, img.pix x y = 0 ∨ img.pix x y = 255

instance (img : ImgN) : Decidable img.Binary := by
  unfold ImgN.Binary; infer_instance

/-- `CImg::is_empty` for a single-plane image: no pixels. -/
def ImgN.isEmpty (img : ImgN) : Prop := img.W = 0 ∨ img.H = 0

instance (img : ImgN) : Decidable img.isEmpty := by
  unfold ImgN.isEmpty; infer_instance

/-- Widening conversion `CImg<double> img_double = input_image`. -/
def ImgN.toQ (img : ImgN) : ImgQ := ⟨img.W, img.H, fun x y => (img.pix x y : ℚ)⟩

/-- `CImg::get_sqr`: square every sample. -/
def ImgQ.sqr (img : ImgQ) : ImgQ := ⟨img.W, img.H, fun x y => img.pix x y * img.pix x y⟩

/-! ### `src/lib/core/integral_image.cpp` -/

/-- The accumulated `row_sum` of `calculate_integral_image`:
`row_sum` after processing column `x` of row `y`, i.e. `∑ i ≤ x, f i y`. -/
def rowAccum (f : ℕ → ℕ → ℚ) : ℕ → ℕ → ℚ
  | 0, y => f 0 y
  | x + 1, y => rowAccum f x y + f (x + 1) y

/-- Pixel `(x, y)` of the integral image, exactly as
`calculate_integral_image` fills it in: the first row is a running
row sum, and every later row adds its running row sum to the entry
just above. -/
def integralPix (f : ℕ → ℕ → ℚ) : ℕ → ℕ → ℚ
  | 0, 0 => f 0 0
  | x + 1, 0 => f (x + 1) 0 + integralPix f x 0
  | x, y + 1 => rowAccum f x (y + 1) + integralPix f x y
termination_by x y => (y, x)

/-- `ite::core::calculate_integral_image`. -/
def calculate_integral_image (src : ImgQ) : ImgQ :=
  ⟨src.W, src.H, integralPix src.pix⟩

/-- `ite::core::get_area_sum` (single plane, so the `z`/`c` arguments
are dropped): inclusion–exclusion over the four corners, with the
boundary guards of the source. -/
def get_area_sum (ii : ImgQ) (x1 y1 x2 y2 : ℕ) : ℚ :=
  let D := ii.pix x2 y2
  let B := if 0 < x1 then ii.pix (x1 - 1) y2 else 0
  let C := if 0 < y1 then ii.pix x2 (y1 - 1) else 0
  let A := if 0 < x1 ∧ 0 < y1 then ii.pix (x1 - 1) (y1 - 1) else 0
  D - B - C + A

/-- The naive inclusive-rectangle sum of the source image. -/
def rectSum (img : ImgQ) (x1 y1 x2 y2 : ℕ) : ℚ :=
  ∑ x ∈ Finset.Icc x1 x2, ∑ y ∈ Finset.Icc y1 y2, img.pix x y

/-- Exclusive-prefix double sum, the mathematical reading of the table. -/
def prefSum (f : ℕ → ℕ → ℚ) (a b : ℕ) : ℚ :=
  ∑ i ∈ Finset.range a, ∑ j ∈ Finset.range b, f i j

/-! ### `src/lib/morphology/morphology.cpp` — `despeckle_ccl`

Connected-component labelling is done by the external library call
`input_image.get_label(diagonal_connections)`; the labelling is
therefore a parameter `label` of the embedding (fed the inverted image
and the connectivity flag, as in the source). -/

/-- Largest label of the label raster (`labels.max()`), taken over the
pixel grid. -/
def labelMax (labels : ImgN) : ℕ :=
  (Finset.range labels.W ×ˢ Finset.range labels.H).sup
    (fun p => labels.pix p.1 p.2)

/-- Size of component `k` (`sizes[k]`), the number of grid positions
whose label is `k`. -/
def componentSize (labels : ImgN) (k : ℕ) : ℕ :=
  ((Finset.range labels.W ×ˢ Finset.range labels.H).filter
    (fun p => labels.pix p.1 p.2 = k)).card

/-- `ite::morphology::despeckle_ccl`.  `label` models
`CImg::get_label` (given the connectivity flag and the inverted
image). -/
def despeckle_ccl (label : Bool → ImgN → ImgN) (input_image : ImgN)
    (threshold : ℕ) (diagonal_connections : Bool) : ImgN :=
  if threshold ≤ 0 then input_image
  else
    let inv : ImgN :=
      ⟨input_image.W, input_image.H,
        fun x y => if input_image.pix x y = 0 then 255 else 0⟩
    let labels := label diagonal_connections inv
    if labelMax labels = 0 then ⟨input_image.W, input_image.H, fun _ _ => 255⟩
    else
      let filtered : ImgN :=
        ⟨inv.W, inv.H, fun x y =>
          if 0 < labels.pix x y ∧ componentSize labels (labels.pix x y) < threshold
          then 0 else inv.pix x y⟩
      ⟨filtered.W, filtered.H,
        fun x y => if filtered.pix x y = 255 then 0 else 255⟩

/-! ### `src/lib/ite.h` — the option record (fields relevant here) -/

/-- `ite::EnhanceOptions` with its default member initialisers
(morphology/despeckle fields of `src/lib/ite.h`). -/
structure EnhanceOptions where
  do_despeckle : Bool := true
  diagonal_connections : Bool := true
  despeckle_threshold : ℕ := 0
  do_dilation : Bool := false
  do_erosion : Bool := false
  kernel_size : ℤ := 5

/-! ### `src/lib/color/color.cpp` — `color_pass_inplace` -/

/-- `CImg::is_empty` for a multi-channel image. -/
def ImgC.isEmpty (img : ImgC) : Prop := img.W = 0 ∨ img.H = 0 ∨ img.C = 0

instance (img : ImgC) : Decidable img.isEmpty := by
  unfold ImgC.isEmpty; infer_instance

/-- `ite::color::color_pass_inplace`.  Exceptions of the source are
modelled as `Except` values carrying the thrown message. -/
def color_pass_inplace (color_image : ImgC) (bin_image : ImgC) :
    Except String ImgC :=
  if bin_image.isEmpty ∨ color_image.isEmpty then .ok color_image
  else if bin_image.C ≠ 1 then
    .error "Binary mask must have a single channel."
  else if color_image.C ≠ 3 then
    .error "Color image must have 3 channels."
  else if color_image.W ≠ bin_image.W ∨ color_image.H ≠ bin_image.H then
    .error "Images must have the same dimensions."
  else
    .ok ⟨color_image.W, color_image.H, color_image.C,
      fun x y c =>
        if bin_image.pix x y 0 = 255 ∧ c < 3 then 255
        else color_image.pix x y c⟩

/-! ### `src/lib/binarization/binarization.cpp` — `binarize_sauvola`

Parameters `window_size`, `k`, `delta` are `int`/`float` in the
source; the claims restrict to `window_size ≥ 3`, so `window_size` is
a natural and the real-valued parameters are exact rationals.
`std::sqrt` forces the threshold into `ℝ`.  The source writes to a
fresh `output_image` and assigns it back to `input_image` at the end;
the embedding returns that final image. -/

noncomputable def binarize_sauvola (input_image : ImgN) (window_size : ℕ)
    (k delta : ℚ) : ImgN :=
  let img_double := input_image.toQ
  let integral_img := calculate_integral_image img_double
  let integral_sq_img := calculate_integral_image img_double.sqr
  let R : ℚ := 128
  let w_half := window_size / 2
  ⟨input_image.W, input_image.H, fun x y =>
    let x1 := x - w_half
    let y1 := y - w_half
    let x2 := min (input_image.W - 1) (x + w_half)
    let y2 := min (input_image.H - 1) (y + w_half)
    let N : ℚ := ((x2 - x1 + 1) * (y2 - y1 + 1) : ℕ)
    let sum := get_area_sum integral_img x1 y1 x2 y2
    let sum_sq := get_area_sum integral_sq_img x1 y1 x2 y2
    let mean := sum / N
    let std_dev : ℝ := Real.sqrt (((max 0 ((sum_sq / N) - mean * mean) : ℚ) : ℝ))
    let threshold : ℝ := (mean : ℝ) * (1 + (k : ℝ) * ((std_dev / (R : ℝ)) - 1)) - (delta : ℝ)
    if (input_image.pix x y : ℝ) > threshold then 255 else 0⟩

/-- The Sauvola binarizer as the specification words it: `μ` and `σ`
are the mean and standard deviation of the samples over the `w × w`
window centred on the pixel and clamped to the image bounds, the
threshold is `μ·(1 + k·(σ/128 − 1)) − δ`, and the output is 255 when
the sample exceeds the threshold, 0 otherwise. -/
noncomputable def sauvola_spec (input_image : ImgN) (window_size : ℕ)
    (k delta : ℚ) : ImgN :=
  let w_half := window_size / 2
  ⟨input_image.W, input_image.H, fun x y =>
    let win := Finset.Icc (x - w_half) (min (input_image.W - 1) (x + w_half)) ×ˢ
      Finset.Icc (y - w_half) (min (input_image.H - 1) (y + w_half))
    let N : ℚ := (win.card : ℚ)
    let mu : ℚ := (∑ p ∈ win, (input_image.pix p.1 p.2 : ℚ)) / N
    let sigma : ℝ :=
      Real.sqrt (((∑ p ∈ win, ((input_image.pix p.1 p.2 : ℚ) - mu) ^ 2) / N : ℚ))
    let threshold : ℝ := (mu : ℝ) * (1 + (k : ℝ) * ((sigma / 128) - 1)) - (delta : ℝ)
    if (input_image.pix x y : ℝ) > threshold then 255 else 0⟩

/-! ### `src/lib/color/contrast.cpp` — `contrast_linear_stretch`

The LUT is computed in single precision:
`const float scale = 255.0f / (max_val - min_val)` and
`lut[i] = (uint8_t)((i - min_val) * scale)`.  Both the division and
the multiplication are IEEE-754 binary32 operations (round to
nearest, ties to even; the `int` operands convert to `float`
exactly), and the `uint8_t` cast truncates toward zero.  `fl32`
below rounds an exact rational to the nearest 24-bit significand;
its binade table covers `[2^−9, 2^11)`, and every value that reaches
it here lies in `[1, 256)` (`255/(max−min) ∈ [1, 255]` and the
products stay below 256), so on the reachable range the model is
exactly the float arithmetic of the source. -/

/-- `⌊log₂ q⌋` by explicit binade table, for `q ∈ [2^−9, 2^11)`
(clamped outside; only `[1, 256)` is reachable from
`contrast_linear_stretch`). -/
def qexp2 (q : ℚ) : ℤ :=
  if 1024 ≤ q then 10
  else if 512 ≤ q then 9
  else if 256 ≤ q then 8
  else if 128 ≤ q then 7
  else if 64 ≤ q then 6
  else if 32 ≤ q then 5
  else if 16 ≤ q then 4
  else if 8 ≤ q then 3
  else if 4 ≤ q then 2
  else if 2 ≤ q then 1
  else if 1 ≤ q then 0
  else if 1/2 ≤ q then -1
  else if 1/4 ≤ q then -2
  else if 1/8 ≤ q then -3
  else if 1/16 ≤ q then -4
  else if 1/32 ≤ q then -5
  else if 1/64 ≤ q then -6
  else if 1/128 ≤ q then -7
  else if 1/256 ≤ q then -8
  else if 1/512 ≤ q then -9
  else -10

/-- Round a rational to the nearest integer, ties to even. -/
def rne (x : ℚ) : ℤ :=
  if x - ⌊x⌋ < 1/2 then ⌊x⌋
  else if 1/2 < x - ⌊x⌋ then ⌊x⌋ + 1
  else if ⌊x⌋ % 2 = 0 then ⌊x⌋ else ⌊x⌋ + 1

/-- IEEE-754 binary32 rounding (round to nearest, ties to even) of a
nonnegative rational: the significand is scaled into `[2^23, 2^24)`
and rounded to an integer. -/
def fl32 (q : ℚ) : ℚ :=
  if q ≤ 0 then 0
  else (rne (q / 2 ^ (qexp2 q - 23)) : ℚ) * 2 ^ (qexp2 q - 23)

/-- The 256-bin histogram: each pixel is clamped (`std::min(255u, val)`)
and counted. -/
def contrastHist (img : ImgN) (v : ℕ) : ℕ :=
  ((Finset.range img.W ×ˢ Finset.range img.H).filter
    (fun p => min 255 (img.pix p.1 p.2) = v)).card

/-- Cumulative count `count` after bin `i` of the `min_val` loop. -/
def cumLow (img : ImgN) (i : ℕ) : ℕ :=
  ∑ v ∈ Finset.range (i + 1), contrastHist img v

/-- Cumulative count `count` after bin `i` of the `max_val` loop
(which scans from 255 downward). -/
def cumHigh (img : ImgN) (i : ℕ) : ℕ :=
  ∑ v ∈ Finset.Icc i 255, contrastHist img v

/-- The 1% cutoff `N / 100` (integer division). -/
def contrastCutoff (img : ImgN) : ℕ := img.W * img.H / 100

/-- `min_val`: the first bin whose cumulative count exceeds the
cutoff (`0` if the loop never breaks, as in the source's
initialiser). -/
def contrastMinVal (img : ImgN) : ℕ :=
  (((List.range 256).find?
    (fun i => decide (contrastCutoff img < cumLow img i))).getD 0)

/-- `max_val`: the first bin, scanning from 255 downward, whose
top-cumulative count exceeds the cutoff (`255` if the loop never
breaks). -/
def contrastMaxVal (img : ImgN) : ℕ :=
  ((((List.range 256).reverse).find?
    (fun i => decide (contrastCutoff img < cumHigh img i))).getD 255)

/-- `ite::color::contrast_linear_stretch`. -/
def contrast_linear_stretch (input_image : ImgN) : ImgN :=
  if input_image.isEmpty then input_image
  else
    let min_val := contrastMinVal input_image
    let max_val := contrastMaxVal input_image
    if max_val ≤ min_val then input_image
    else
      let lut : ℕ → ℕ := fun i =>
        if i ≤ min_val then 0
        else if max_val ≤ i then 255
        else (⌊fl32 (((i - min_val : ℕ) : ℚ)
          * fl32 ((255 : ℚ) / ((max_val - min_val : ℕ) : ℚ)))⌋).toNat
      ⟨input_image.W, input_image.H,
        fun x y => lut (min 255 (input_image.pix x y))⟩

/-! ### `src/lib/binarization/binarization.cpp` — Otsu

`binarize_otsu` passes its `CImg<uint>` to helpers taking
`CImg<unsigned char>`, so every sample is read modulo 256 (`% 256`
below; the claims restrict to 8-bit samples anyway).  The `for`-loop
over candidate thresholds is embedded with an explicit fuel argument
(`fuel = 256 - t`), so the recursion is structural and the kernel can
evaluate it. -/

/-- The 256-bin histogram of `compute_otsu_threshold`. -/
def otsuHist (g : ImgN) (v : ℕ) : ℕ :=
  ((Finset.range g.W ×ˢ Finset.range g.H).filter
    (fun p => g.pix p.1 p.2 % 256 = v)).card

/-- `w_b` before processing candidate `t`: `∑ s < t, hist s`. -/
def otsuWBp (g : ImgN) (t : ℕ) : ℕ := ∑ s ∈ Finset.range t, otsuHist g s

/-- `sum_b` before processing candidate `t`: `∑ s < t, s·hist s`. -/
def otsuSumBp (g : ImgN) (t : ℕ) : ℚ :=
  ∑ s ∈ Finset.range t, (s : ℚ) * (otsuHist g s : ℚ)

/-- `sum_all`: the first moment of the whole histogram. -/
def otsuSumAll (g : ImgN) : ℚ :=
  ∑ s ∈ Finset.range 256, (s : ℚ) * (otsuHist g s : ℚ)

/-- Candidate `t` has both classes non-empty (the loop skips `t` with
`w_b = 0` via `continue` and stops at `w_f = 0` via `break`). -/
def otsuValid (g : ImgN) (t : ℕ) : Prop :=
  0 < otsuWBp g (t + 1) ∧ otsuWBp g (t + 1) < g.W * g.H

instance (g : ImgN) (t : ℕ) : Decidable (otsuValid g t) := by
  unfold otsuValid; infer_instance

/-- The between-class variance `w_b·w_f·(m_b−m_f)²` of candidate `t`,
written exactly as the loop computes `between`. -/
def otsuVar (g : ImgN) (t : ℕ) : ℚ :=
  (otsuWBp g (t + 1) : ℚ) * ((g.W * g.H - otsuWBp g (t + 1) : ℕ) : ℚ)
    * (otsuSumBp g (t + 1) / (otsuWBp g (t + 1) : ℚ)
        - (otsuSumAll g - otsuSumBp g (t + 1))
          / ((g.W * g.H - otsuWBp g (t + 1) : ℕ) : ℚ))
    * (otsuSumBp g (t + 1) / (otsuWBp g (t + 1) : ℚ)
        - (otsuSumAll g - otsuSumBp g (t + 1))
          / ((g.W * g.H - otsuWBp g (t + 1) : ℕ) : ℚ))

/-- The candidate loop of `compute_otsu_threshold`; state
`(t, w_b, sum_b, max_between, best_t)`, `fuel = 256 − t`. -/
def otsuLoop (hist : ℕ → ℕ) (N : ℕ) (sum_all : ℚ) :
    ℕ → ℕ → ℕ → ℚ → ℚ → ℕ → ℕ
  | 0, _t, _w_b, _sum_b, _max_between, best_t => best_t
  | fuel + 1, t, w_b, sum_b, max_between, best_t =>
      let w_b' := w_b + hist t
      if w_b' = 0 then
        otsuLoop hist N sum_all fuel (t + 1) w_b' sum_b max_between best_t
      else
        let w_f := N - w_b'
        if w_f = 0 then best_t
        else
          let sum_b' := sum_b + (t : ℚ) * (hist t : ℚ)
          let m_b := sum_b' / (w_b' : ℚ)
          let m_f := (sum_all - sum_b') / (w_f : ℚ)
          let between := (w_b' : ℚ) * (w_f : ℚ) * (m_b - m_f) * (m_b - m_f)
          if max_between < between then
            otsuLoop hist N sum_all fuel (t + 1) w_b' sum_b' between t
          else
            otsuLoop hist N sum_all fuel (t + 1) w_b' sum_b' max_between best_t

/-- `ite::binarization::compute_otsu_threshold`. -/
def compute_otsu_threshold (g : ImgN) : ℕ :=
  if g.W * g.H = 0 then 128
  else otsuLoop (otsuHist g) (g.W * g.H) (otsuSumAll g) 256 0 0 0 (-1) 128

/-- The index list `start, start+2, start+4, …` below `stop` (the
`for (i = start; i < stop; i += 2)` loops of `compute_border_mean`). -/
def stride2 (start stop : ℕ) : List ℕ :=
  (List.range ((stop - start + 1) / 2)).map (fun j => start + 2 * j)

/-- The `(x, y)` pairs visited by `compute_border_mean`: top and
bottom strips over the full width, then left and right strips of the
remaining rows (positions visited twice are counted twice, exactly as
the source's running `sum`/`cnt` do). -/
def borderIdx (W H b : ℕ) : List (ℕ × ℕ) :=
  ((stride2 0 b).flatMap (fun y => (stride2 0 W).map (fun x => (x, y))) ++
    (stride2 (H - b) H).flatMap (fun y => (stride2 0 W).map (fun x => (x, y)))) ++
  (stride2 b (H - b)).flatMap (fun y =>
    (stride2 0 b).map (fun x => (x, y)) ++
      (stride2 (W - b) W).map (fun x => (x, y)))

/-- The 5% border width `b`:
`max(1, ⌊0.05·min(W,H)⌋) = max 1 (min W H / 20)` (the double product
`0.05·m` floors to `m / 20` for every 32-bit `m`). -/
def borderB (g : ImgN) : ℕ := max 1 (min g.W g.H / 20)

/-- `cnt` of `compute_border_mean`. -/
def borderCnt (g : ImgN) : ℕ := (borderIdx g.W g.H (borderB g)).length

/-- `sum` of `compute_border_mean` (samples read as unsigned char). -/
def borderSum (g : ImgN) : ℕ :=
  ((borderIdx g.W g.H (borderB g)).map (fun p => g.pix p.1 p.2 % 256)).sum

/-- `ite::binarization::compute_border_mean`. -/
def compute_border_mean (g : ImgN) : ℚ :=
  if g.W = 0 ∨ g.H = 0 then 0
  else if borderCnt g = 0 then 0
  else (borderSum g : ℚ) / (borderCnt g : ℚ)

/-- `ite::binarization::binarize_otsu` (single plane). -/
def binarize_otsu (input_image : ImgN) : ImgN :=
  let threshold := compute_otsu_threshold input_image
  let border_mean := compute_border_mean input_image
  let light_background := (threshold : ℚ) < border_mean
  ⟨input_image.W, input_image.H, fun x y =>
    let pixel := input_image.pix x y % 256
    let is_fg := if light_background then pixel ≤ threshold
      else threshold < pixel
    if is_fg then 0 else 255⟩

/-- The concrete 4×1 image (50, 50, 200, 200) of the claim. -/
def otsuExample : ImgN := ⟨4, 1, fun x _ => if x < 2 then 50 else 200⟩

/-- What the specification asks of the chosen threshold: a valid
candidate of maximal between-class variance, ties broken toward the
lowest `t`. -/
def OtsuBestSpec (g : ImgN) (r : ℕ) : Prop :=
  otsuValid g r ∧ r < 256 ∧
  (∀ s < 256, otsuValid g s → otsuVar g s ≤ otsuVar g r) ∧
  (∀ s < 256, otsuValid g s → otsuVar g s = otsuVar g r → r ≤ s)

/-- Loop invariant of `otsuLoop` on entry to candidate `t`: either no
valid candidate below `t` has been seen (`max_between`, `best_t` still
hold their initialisers), or `best_t` is the least argmax of the valid
candidates below `t`. -/
def OtsuInv (g : ImgN) (t : ℕ) (mb : ℚ) (bt : ℕ) : Prop :=
  ((∀ s < t, ¬otsuValid g s) ∧ mb = -1 ∧ bt = 128) ∨
  (otsuValid g bt ∧ bt < t ∧ mb = otsuVar g bt ∧
    (∀ s < t, otsuValid g s → otsuVar g s ≤ mb) ∧
    (∀ s < t, otsuValid g s → otsuVar g s = mb → bt ≤ s))

/-! ### `src/lib/ite.cpp` / `src/lib/geometry/geometry.cpp` — deskew

`score_angle_variance` rotates the working copy with the external
`CImg::get_rotate`, so the per-angle score is a parameter
`score : ℚ → ℚ` (the projection-profile score of the preprocessed
work image); likewise the final `CImg::rotate` is a parameter `rot`.
The angle search and the rotate-or-not gate are embedded from the
source. -/

/-- `search_best_angle` (serial semantics of the OpenMP loop: the
first maximal score wins). -/
def search_best_angle (score : ℚ → ℚ) (start_deg end_deg step_deg : ℚ) :
    ℚ × ℚ :=
  if step_deg ≤ 0 then (0, -1)
  else
    let s := if end_deg < start_deg then end_deg else start_deg
    let e := if end_deg < start_deg then start_deg else end_deg
    let N := (⌊(e - s) / step_deg⌋).toNat + 1
    (List.range N).foldl
      (fun (b : ℚ × ℚ) (i : ℕ) =>
        let a := s + (i : ℚ) * step_deg
        let v := score a
        if b.2 < v then (a, v) else b)
      (0, -1)

/-- The three-pass coarse-to-fine search of `deskew_inplace`:
`[−15°, 15°]` step 1°, then `±1°` step 0.2°, then `±0.3°` step 0.05°;
returns `(best_angle, best_score)`. -/
def deskew_search (score : ℚ → ℚ) : ℚ × ℚ :=
  let p1 := search_best_angle score (-15) 15 1
  let p2 := search_best_angle score (p1.1 - 1) (p1.1 + 1) (1/5)
  search_best_angle score (p2.1 - 3/10) (p2.1 + 3/10) (1/20)

/-- The rotate-or-not decision of `deskew_inplace`: rotate only if the
angle is non-trivial (`|a| > 0.05`) and the improvement is meaningful
(`best > base + 1e-9`, and `best ≥ base·1.002` unless `base ≤ 0`). -/
def deskew_apply (rot : ImgN → ℚ → ImgN) (score : ℚ → ℚ) (img : ImgN) :
    ImgN :=
  let base_score := score 0
  let best := deskew_search score
  if 1/20 < |best.1| ∧
      (base_score + 1/1000000000 < best.2 ∧
        (base_score ≤ 0 ∨ base_score * (501/500) ≤ best.2)) then
    rot img best.1
  else img

/-- A score function used as a concrete input: 1003 at angle 1°,
1000 everywhere else. -/
def scoreC : ℚ → ℚ := fun a => if a = 1 then 1003 else 1000

/-- A concrete rotation function whose output is recognisable. -/
def rotMark : ImgN → ℚ → ImgN := fun img _ => ⟨img.W, img.H, fun _ _ => 7⟩

/-! ### `src/lib/filters/filters.cpp` — `adaptive_median_filter`

The row-block/halo machinery of the source partitions the output into
disjoint row blocks whose workers read from thread-local copies of the
input (replicate boundary via `clampi`), so each output pixel is a
function of the clamped window of the input image; the embedding
computes that per-pixel function directly (the `block_h` tuning
parameter does not affect the result).  `hist_add` stores samples as
`uint8_t`, hence the `% 256` in the histogram stage. -/

/-- Replicate-boundary sample: coordinates clamped to the image
bounds (`utils::clampi`). -/
def sampleR (img : ImgN) (x y : ℤ) : ℕ :=
  img.pix (min (max x 0) ((img.W : ℤ) - 1)).toNat
    (min (max y 0) ((img.H : ℤ) - 1)).toNat

/-- `pix_sort`: order a pair. -/
def pix_sort (a b : ℕ) : ℕ × ℕ := (min a b, max a b)

/-- The 19-exchange `median9` sorting network, step for step. -/
def median9 (q0 q1 q2 q3 q4 q5 q6 q7 q8 : ℕ) : ℕ :=
  let (p1, p2) := pix_sort q1 q2
  let (p4, p5) := pix_sort q4 q5
  let (p7, p8) := pix_sort q7 q8
  let (p0, p1) := pix_sort q0 p1
  let (p3, p4) := pix_sort q3 p4
  let (p6, p7) := pix_sort q6 p7
  let (p1, p2) := pix_sort p1 p2
  let (p4, p5) := pix_sort p4 p5
  let (p7, p8) := pix_sort p7 p8
  let (p0, p3) := pix_sort p0 p3
  let (p5, p8) := pix_sort p5 p8
  let (p4, p7) := pix_sort p4 p7
  let (p3, p6) := pix_sort p3 p6
  let (p1, p4) := pix_sort p1 p4
  let (p2, p5) := pix_sort p2 p5
  let (p4, p7) := pix_sort p4 p7
  let (p4, p2) := pix_sort p4 p2
  let (p6, p4) := pix_sort p6 p4
  let (p4, p2) := pix_sort p4 p2
  let _ := (p0, p3, p5, p6, p7, p8)
  p4

/-- The ring of radius `r` added by one expansion step: the two
vertical sides (`dy ∈ [−r..r]`, `x ± r` clamped), then the top and
bottom rows without corners (`dx ∈ [−(r−1)..r−1]`). -/
def ringSamples (img : ImgN) (x y r : ℕ) : List ℕ :=
  ((List.range (2 * r + 1)).flatMap (fun dy =>
    [sampleR img ((x : ℤ) - r) ((y : ℤ) - r + dy),
     sampleR img ((x : ℤ) + r) ((y : ℤ) - r + dy)])) ++
  ((List.range (2 * r - 1)).flatMap (fun dx =>
    [sampleR img ((x : ℤ) - (r - 1 : ℕ) + dx) ((y : ℤ) - r),
     sampleR img ((x : ℤ) - (r - 1 : ℕ) + dx) ((y : ℤ) + r)]))

/-- The multiset held in the worker's histogram after expanding to
radius `r`: the 3×3 seed plus the rings 2..r, all truncated to
`uint8_t` by `hist_add`. -/
def histList (img : ImgN) (x y : ℕ) : ℕ → List ℕ
  | 0 => []
  | 1 =>
      [sampleR img ((x : ℤ) - 1) ((y : ℤ) - 1),
       sampleR img (x : ℤ) ((y : ℤ) - 1),
       sampleR img ((x : ℤ) + 1) ((y : ℤ) - 1),
       sampleR img ((x : ℤ) - 1) (y : ℤ),
       sampleR img (x : ℤ) (y : ℤ),
       sampleR img ((x : ℤ) + 1) (y : ℤ),
       sampleR img ((x : ℤ) - 1) ((y : ℤ) + 1),
       sampleR img (x : ℤ) ((y : ℤ) + 1),
       sampleR img ((x : ℤ) + 1) ((y : ℤ) + 1)].map (· % 256)
  | r + 1 => histList img x y r ++ (ringSamples img x y (r + 1)).map (· % 256)

/-- `hist_min_med_max`: the first occupied bin (default 0). -/
def histMin (l : List ℕ) : ℕ :=
  ((List.range 256).find? (fun i => decide (0 < l.count i))).getD 0

/-- `hist_min_med_max`: the last occupied bin (default 255). -/
def histMax (l : List ℕ) : ℕ :=
  (((List.range 256).reverse).find? (fun j => decide (0 < l.count j))).getD 255

/-- `hist_min_med_max`: the first bin where the cumulative count
reaches `(total+1)/2` (falling back to the maximum). -/
def histMed (l : List ℕ) (total : ℕ) : ℕ :=
  ((List.range 256).find?
    (fun k => decide ((total + 1) / 2 ≤ l.countP (fun v => decide (v ≤ k))))).getD
    (histMax l)

/-- The window-expansion loop (`r = 2..max_r`); `fuel = max_r − r + 1`
counts the remaining iterations, `outv` carries the last median. -/
def amfExpand (img : ImgN) (x y zxy : ℕ) : ℕ → ℕ → ℕ → ℕ
  | 0, _r, outv => outv
  | fuel + 1, r, _outv =>
      let l := histList img x y r
      let total := (2 * r + 1) * (2 * r + 1)
      let zmin := histMin l
      let zmax := histMax l
      let zmed := histMed l total
      if zmin < zmed ∧ zmed < zmax then
        (if zmin < zxy ∧ zxy < zmax then zxy else zmed)
      else amfExpand img x y zxy fuel (r + 1) zmed

/-- One output pixel of the adaptive median filter: the fast 3×3
stage, falling back to histogram expansion. -/
def amfPixel (img : ImgN) (max_r x y : ℕ) : ℕ :=
  let p0 := sampleR img ((x : ℤ) - 1) ((y : ℤ) - 1)
  let p1 := sampleR img (x : ℤ) ((y : ℤ) - 1)
  let p2 := sampleR img ((x : ℤ) + 1) ((y : ℤ) - 1)
  let p3 := sampleR img ((x : ℤ) - 1) (y : ℤ)
  let p4 := sampleR img (x : ℤ) (y : ℤ)
  let p5 := sampleR img ((x : ℤ) + 1) (y : ℤ)
  let p6 := sampleR img ((x : ℤ) - 1) ((y : ℤ) + 1)
  let p7 := sampleR img (x : ℤ) ((y : ℤ) + 1)
  let p8 := sampleR img ((x : ℤ) + 1) ((y : ℤ) + 1)
  let zxy := img.pix x y
  let zmed := median9 p0 p1 p2 p3 p4 p5 p6 p7 p8
  let zmin := min p0 (min p1 (min p2 (min p3 (min p4 (min p5 (min p6 (min p7 p8)))))))
  let zmax := max p0 (max p1 (max p2 (max p3 (max p4 (max p5 (max p6 (max p7 p8)))))))
  if zmin < zmed ∧ zmed < zmax then
    (if zmin < zxy ∧ zxy < zmax then zxy else zmed)
  else amfExpand img x y zxy (max_r - 1) 2 zmed

/-- `ite::filters::adaptive_median_filter`.  An even `max_window_size`
is silently incremented to the next odd value (`++max_window_size`);
no error is ever raised. -/
def adaptive_median_filter (img : ImgN) (max_window_size : ℤ) : ImgN :=
  if img.W = 0 ∨ img.H = 0 then img
  else if img.W < 2 ∨ img.H < 2 then img
  else
    let mws1 := if max_window_size < 3 then 3 else max_window_size
    let mws2 := if mws1 % 2 = 0 then mws1 + 1 else mws1
    let max_r := ((mws2 - 1) / 2).toNat
    ⟨img.W, img.H, fun x y =>
      if x < img.W ∧ y < img.H then amfPixel img max_r x y else img.pix x y⟩

/-! ### `src/lib/morphology/morphology.cpp` — separable dilation

`sliding_window_max` keeps a monotonic deque of indices.  The deque is
embedded as a list with the **back** (most recent index) at the list
head, so the C++ `q[tail++] = i` after the pop-back loop is `swmPush`
and the front is the list's last element.  The `stride` argument of
the source is the memory layout of a line and is handled by currying
the row/column into a 1-D `src` function. -/

/-- The push of index `i`:
`while (head < tail && src[q[tail-1]] <= val) tail--; q[tail++] = i`. -/
def swmPush (src : ℕ → ℕ) (i : ℕ) : List ℕ → List ℕ
  | [] => [i]
  | j :: rest => if src j ≤ src i then swmPush src i rest else i :: j :: rest

/-- The pop-from-the-front step
(`if (head < tail && q[head] <= i - (2*r + 1)) head++`, with the
subtraction in `int` arithmetic). -/
def swmPop (q : List ℕ) (i r : ℕ) : List ℕ :=
  match q.getLast? with
  | some j => if (j : ℤ) ≤ (i : ℤ) - (2 * r + 1) then q.dropLast else q
  | none => q

/-- One iteration of `sliding_window_max` at loop index `i`: drop the
front if it fell out of the window, push `i` when `i < len`, and write
the front's value to the centre `i − r` when that centre is in range
and the deque is non-empty. -/
def swmStep (src : ℕ → ℕ) (len r : ℕ) (s : List ℕ × (ℕ → ℕ)) (i : ℕ) :
    List ℕ × (ℕ → ℕ) :=
  let q2 := if i < len then swmPush src i (swmPop s.1 i r) else swmPop s.1 i r
  (q2,
    if r ≤ i ∧ i - r < len then
      match q2.getLast? with
      | some j => Function.update s.2 (i - r) (src j)
      | none => s.2
    else s.2)

/-- `ite::morphology::sliding_window_max` on one line; `dst0` is the
prior content of the output buffer. -/
def sliding_window_max (src dst0 : ℕ → ℕ) (len r : ℕ) : ℕ → ℕ :=
  ((List.range (len + r)).foldl (swmStep src len r) ([], dst0)).2

/-- `ite::morphology::dilation_square`: horizontal pass into the
`temp` buffer (initialised to a copy of the input), vertical pass back
into the image. -/
def dilation_square (input_image : ImgN) (kernel_size : ℤ) : ImgN :=
  if kernel_size ≤ 1 then input_image
  else
    let r := (kernel_size / 2).toNat
    let temp : ImgN := ⟨input_image.W, input_image.H, fun x y =>
      sliding_window_max (fun i => input_image.pix i y)
        (fun i => input_image.pix i y) input_image.W r x⟩
    ⟨input_image.W, input_image.H, fun x y =>
      sliding_window_max (fun j => temp.pix x j)
        (fun j => input_image.pix x j) input_image.H r y⟩

/-- The naive 1-D window maximum over `[c−r, c+r] ∩ [0, len)`. -/
def winMax1D (src : ℕ → ℕ) (len r c : ℕ) : ℕ :=
  (Finset.Icc (c - r) (min (c + r) (len - 1))).sup src

/-- The naive 2-D window maximum over the `k×k` window centred on
`(x, y)` intersected with the image bounds. -/
def winMax2D (img : ImgN) (r x y : ℕ) : ℕ :=
  ((Finset.Icc (x - r) (min (x + r) (img.W - 1))) ×ˢ
    (Finset.Icc (y - r) (min (y + r) (img.H - 1)))).sup
    (fun p => img.pix p.1 p.2)

/-- Index `j` is a strict suffix maximum among the first `m` processed
in-range indices: every later processed index has a strictly smaller
sample. -/
def swmSfx (src : ℕ → ℕ) (len m j : ℕ) : Prop :=
  ∀ j', j' < len → j' + 1 ≤ m → j < j' → src j' < src j

/-- Invariant of the `sliding_window_max` loop after `m` iterations:
the deque holds exactly the strict suffix maxima of the current
window, in decreasing index order, and every centre whose window is
complete holds the window maximum. -/
def SwmInv (src : ℕ → ℕ) (len r m : ℕ) (s : List ℕ × (ℕ → ℕ)) : Prop :=
  s.1.Pairwise (fun a b => b < a) ∧
  (∀ j, j ∈ s.1 ↔ (j < len ∧ j + 1 ≤ m ∧ m ≤ j + 2 * r + 1 ∧
    swmSfx src len m j)) ∧
  (∀ c, c < len → c + r + 1 ≤ m → s.2 c = winMax1D src len r c)

/-! # Theorems -/

/-! ### C1 — integral-image correctness -/

theorem rowAccum_eq (f : ℕ → ℕ → ℚ) (x y : ℕ) :
    rowAccum f x y = ∑ i ∈ Finset.range (x + 1), f i y := by
  induction x with
  | zero => simp [rowAccum]
  | succ n ih =>
      rw [rowAccum, ih, Finset.sum_range_succ (fun i => f i y) (n + 1)]

theorem integralPix_eq (f : ℕ → ℕ → ℚ) (x y : ℕ) :
    integralPix f x y = prefSum f (x + 1) (y + 1) := by
  induction x, y using integralPix.induct f with
  | case1 =>
      simp [integralPix, prefSum]
  | case2 x ih =>
      rw [integralPix, ih]
      simp only [prefSum, Finset.sum_range_one]
      rw [Finset.sum_range_succ (fun i => ∑ j ∈ Finset.range 1, f i j) (x + 1)]
      simp [add_comm]
  | case3 x y ih =>
      rw [integralPix, ih, rowAccum_eq]
      simp only [prefSum]
      have h : ∀ a : ℕ, ∑ i ∈ Finset.range a, ∑ j ∈ Finset.range (y + 1 + 1), f i j
          = (∑ i ∈ Finset.range a, ∑ j ∈ Finset.range (y + 1), f i j)
            + ∑ i ∈ Finset.range a, f i (y + 1) := by
        intro a
        rw [← Finset.sum_add_distrib]
        refine Finset.sum_congr rfl fun i _ => ?_
        rw [Finset.sum_range_succ]
      rw [h]
      ring

theorem get_area_sum_integral (src : ImgQ) (x1 y1 x2 y2 : ℕ) :
    get_area_sum (calculate_integral_image src) x1 y1 x2 y2 =
      prefSum src.pix (x2 + 1) (y2 + 1) - prefSum src.pix x1 (y2 + 1)
        - prefSum src.pix (x2 + 1) y1 + prefSum src.pix x1 y1 := by
  unfold get_area_sum calculate_integral_image
  simp only
  rcases Nat.eq_zero_or_pos x1 with h1 | h1 <;>
    rcases Nat.eq_zero_or_pos y1 with h2 | h2
  · simp [h1, h2, integralPix_eq, prefSum]
  · have : y1 - 1 + 1 = y1 := Nat.succ_pred_eq_of_pos h2
    simp [h1, h2, Nat.not_lt_of_le, integralPix_eq, this, prefSum]
  · have : x1 - 1 + 1 = x1 := Nat.succ_pred_eq_of_pos h1
    simp [h1, h2, Nat.not_lt_of_le, integralPix_eq, this, prefSum]
  · have hx1 : x1 - 1 + 1 = x1 := Nat.succ_pred_eq_of_pos h1
    have hy1 : y1 - 1 + 1 = y1 := Nat.succ_pred_eq_of_pos h2
    simp [h1, h2, integralPix_eq, hx1, hy1]

theorem prefSum_sub_rect (f : ℕ → ℕ → ℚ) (x1 y1 x2 y2 : ℕ)
    (hx : x1 ≤ x2) (hy : y1 ≤ y2) :
    prefSum f (x2 + 1) (y2 + 1) - prefSum f x1 (y2 + 1)
      - prefSum f (x2 + 1) y1 + prefSum f x1 y1 =
    ∑ x ∈ Finset.Icc x1 x2, ∑ y ∈ Finset.Icc y1 y2, f x y := by
  have hx' : x1 ≤ x2 + 1 := Nat.le_succ_of_le hx
  have hy' : y1 ≤ y2 + 1 := Nat.le_succ_of_le hy
  have houter : ∀ b : ℕ,
      prefSum f (x2 + 1) b - prefSum f x1 b
        = ∑ x ∈ Finset.Ico x1 (x2 + 1), ∑ y ∈ Finset.range b, f x y := by
    intro b
    rw [Finset.sum_Ico_eq_sub _ hx']
    simp [prefSum]
  have hsplit :
      prefSum f (x2 + 1) (y2 + 1) - prefSum f x1 (y2 + 1)
        - (prefSum f (x2 + 1) y1 - prefSum f x1 y1)
      = ∑ x ∈ Finset.Ico x1 (x2 + 1), ∑ y ∈ Finset.Ico y1 (y2 + 1), f x y := by
    rw [houter, houter, ← Finset.sum_sub_distrib]
    refine Finset.sum_congr rfl fun x _ => ?_
    rw [Finset.sum_Ico_eq_sub _ hy']
  calc prefSum f (x2 + 1) (y2 + 1) - prefSum f x1 (y2 + 1)
        - prefSum f (x2 + 1) y1 + prefSum f x1 y1
      = prefSum f (x2 + 1) (y2 + 1) - prefSum f x1 (y2 + 1)
        - (prefSum f (x2 + 1) y1 - prefSum f x1 y1) := by ring
    _ = ∑ x ∈ Finset.Ico x1 (x2 + 1), ∑ y ∈ Finset.Ico y1 (y2 + 1), f x y := hsplit
    _ = ∑ x ∈ Finset.Icc x1 x2, ∑ y ∈ Finset.Icc y1 y2, f x y := by
        rw [Nat.Ico_succ_right]
        refine Finset.sum_congr rfl fun x _ => ?_
        rw [Nat.Ico_succ_right]

/-- The rectangle-sum identity, shared by the claims below. -/
theorem get_area_sum_rect (src : ImgQ) (x1 y1 x2 y2 : ℕ)
    (hx12 : x1 ≤ x2) (hy12 : y1 ≤ y2) :
    get_area_sum (calculate_integral_image src) x1 y1 x2 y2 =
      rectSum src x1 y1 x2 y2 := by
  rw [get_area_sum_integral src x1 y1 x2 y2]
  exact prefSum_sub_rect src.pix x1 y1 x2 y2 hx12 hy12

/-- C1: for a single-plane image and indices `x1 ≤ x2 < W`,
`y1 ≤ y2 < H`, `get_area_sum` on `calculate_integral_image src` at
corners `(x1,y1)`, `(x2,y2)` is the naive sum of `src` over the
inclusive rectangle `[x1..x2] × [y1..y2]`. -/
theorem C1_integral_rect_sum (src : ImgQ) (x1 y1 x2 y2 : ℕ)
    (hx12 : x1 ≤ x2) (hx2 : x2 < src.W) (hy12 : y1 ≤ y2) (hy2 : y2 < src.H) :
    get_area_sum (calculate_integral_image src) x1 y1 x2 y2 =
      rectSum src x1 y1 x2 y2 :=
  get_area_sum_rect src x1 y1 x2 y2 hx12 hy12

/-- Witness for C1 on a concrete 3×2 image. -/
theorem C1_integral_rect_sum_witness :
    get_area_sum
        (calculate_integral_image ⟨3, 2, fun x y => (x + 2 * y : ℚ)⟩)
        1 0 2 1 =
      rectSum ⟨3, 2, fun x y => (x + 2 * y : ℚ)⟩ 1 0 2 1 :=
  C1_integral_rect_sum ⟨3, 2, fun x y => (x + 2 * y : ℚ)⟩ 1 0 2 1
    (by decide) (by decide) (by decide) (by decide)

/-! ### C4 — binary preservation -/

/-- C4: every sample produced by `binarize_sauvola` is 0 or 255, and
`despeckle_ccl` (for any labelling, i.e. any behaviour of the external
`CImg::get_label`) maps an image with samples in `{0, 255}` to an
image with samples in `{0, 255}`. -/
theorem C4_binary_preservation :
    (∀ (input : ImgN) (w : ℕ) (k delta : ℚ) (x y : ℕ),
      (binarize_sauvola input w k delta).pix x y = 0 ∨
        (binarize_sauvola input w k delta).pix x y = 255) ∧
    (∀ (label : Bool → ImgN → ImgN) (input : ImgN) (t : ℕ) (diag : Bool),
      input.Binary → (despeckle_ccl label input t diag).Binary) := by
  constructor
  · intro input w k delta x y
    simp only [binarize_sauvola]
    split <;> simp
  · intro label input t diag h
    simp only [despeckle_ccl]
    split
    · exact h
    · split
      · intro x _ y _
        right; rfl
      · intro x _ y _
        dsimp only
        split
        · decide
        · split <;> decide

/-- Witness for C4 at concrete inputs (the despeckle half has a
`Binary` hypothesis). -/
theorem C4_binary_preservation_witness :
    ((binarize_sauvola ⟨1, 1, fun _ _ => 7⟩ 3 (1/5) 0).pix 0 0 = 0 ∨
      (binarize_sauvola ⟨1, 1, fun _ _ => 7⟩ 3 (1/5) 0).pix 0 0 = 255) ∧
    (despeckle_ccl (fun _ i => i) ⟨2, 1, fun x _ => 255 * x⟩ 1 true).Binary :=
  ⟨C4_binary_preservation.1 ⟨1, 1, fun _ _ => 7⟩ 3 (1/5) 0 0 0,
    C4_binary_preservation.2 (fun _ i => i) ⟨2, 1, fun x _ => 255 * x⟩ 1 true
      (by decide)⟩

/-! ### C10 — despeckle with the default threshold is the identity -/

/-- C10: `despeckle_ccl` with any threshold `≤ 0` (the threshold is
unsigned, so `= 0`) returns the image unmodified, and the option
record's defaults enable despeckling with `despeckle_threshold = 0`,
so despeckling under default options is the identity. -/
theorem C10_default_despeckle_identity (label : Bool → ImgN → ImgN)
    (img : ImgN) (t : ℕ) (ht : t ≤ 0) (diag : Bool) :
    despeckle_ccl label img t diag = img ∧
    ({} : EnhanceOptions).do_despeckle = true ∧
    ({} : EnhanceOptions).despeckle_threshold = 0 ∧
    despeckle_ccl label img ({} : EnhanceOptions).despeckle_threshold diag = img := by
  refine ⟨?_, rfl, rfl, ?_⟩
  · simp only [despeckle_ccl]
    rw [if_pos ht]
  · simp [despeckle_ccl]

/-- Witness for C10 at a concrete image and labelling. -/
theorem C10_default_despeckle_identity_witness :
    despeckle_ccl (fun _ i => i) ⟨1, 1, fun _ _ => 0⟩ 0 true = ⟨1, 1, fun _ _ => 0⟩ ∧
    ({} : EnhanceOptions).do_despeckle = true ∧
    ({} : EnhanceOptions).despeckle_threshold = 0 ∧
    despeckle_ccl (fun _ i => i) ⟨1, 1, fun _ _ => 0⟩
      ({} : EnhanceOptions).despeckle_threshold true = ⟨1, 1, fun _ _ => 0⟩ :=
  C10_default_despeckle_identity (fun _ i => i) ⟨1, 1, fun _ _ => 0⟩ 0
    (by decide) true

/-! ### C8 — colour pass -/

/-- C8, counterexample: the claim admits colour images with **at
least** 3 channels, but the source requires **exactly** 3: on a 1×1
4-channel colour image with an all-255 mask, `color_pass_inplace`
throws instead of whitening the pixel. -/
theorem C8_colour_pass_counterexample :
    color_pass_inplace ⟨1, 1, 4, fun _ _ _ => 7⟩ ⟨1, 1, 1, fun _ _ _ => 255⟩ =
      .error "Color image must have 3 channels." ∧
    ∀ out : ImgC,
      color_pass_inplace ⟨1, 1, 4, fun _ _ _ => 7⟩ ⟨1, 1, 1, fun _ _ _ => 255⟩ ≠
        .ok out := by
  refine ⟨rfl, fun out h => ?_⟩
  rw [show color_pass_inplace ⟨1, 1, 4, fun _ _ _ => 7⟩ ⟨1, 1, 1, fun _ _ _ => 255⟩ =
      .error "Color image must have 3 channels." from rfl] at h
  exact Except.noConfusion h

/-- C8, amended: for a single-channel mask `B` and a colour image `R`
with **exactly** 3 channels and the same width and height,
`color_pass_inplace` succeeds, sets the three samples of exactly the
pixels whose mask sample is 255 to 255, leaves all other pixels
unchanged, and with an all-0 mask returns `R` itself. -/
theorem C8_colour_pass (R B : ImgC) (hB : B.C = 1) (hR : R.C = 3)
    (hW : R.W = B.W) (hH : R.H = B.H) :
    (∃ out : ImgC, color_pass_inplace R B = .ok out ∧
      out.W = R.W ∧ out.H = R.H ∧ out.C = R.C ∧
      (∀ x < R.W, ∀ y < R.H, ∀ c < 3,
        out.pix x y c = if B.pix x y 0 = 255 then 255 else R.pix x y c)) ∧
    ((∀ x y, B.pix x y 0 = 0) → color_pass_inplace R B = .ok R) := by
  have hmain : ∀ he : ¬ (B.isEmpty ∨ R.isEmpty),
      color_pass_inplace R B =
        .ok ⟨R.W, R.H, R.C, fun x y c =>
          if B.pix x y 0 = 255 ∧ c < 3 then 255 else R.pix x y c⟩ := by
    intro he
    simp only [color_pass_inplace]
    rw [if_neg he, if_neg (by simp [hB]), if_neg (by simp [hR]),
      if_neg (by simp [hW, hH])]
  constructor
  · by_cases he : B.isEmpty ∨ R.isEmpty
    · refine ⟨R, ?_, rfl, rfl, rfl, ?_⟩
      · simp only [color_pass_inplace]
        rw [if_pos he]
      · intro x hx y hy c _
        exfalso
        rcases he with he | he
        · rcases he with h0 | h0 | h0
          · rw [hW] at hx; omega
          · rw [hH] at hy; omega
          · rw [hB] at h0; omega
        · rcases he with h0 | h0 | h0
          · omega
          · omega
          · rw [hR] at h0; omega
    · refine ⟨_, hmain he, rfl, rfl, rfl, ?_⟩
      intro x _ y _ c hc
      dsimp only
      by_cases hm : B.pix x y 0 = 255
      · rw [if_pos ⟨hm, hc⟩, if_pos hm]
      · rw [if_neg (fun hand => hm hand.1), if_neg hm]
  · intro hz
    by_cases he : B.isEmpty ∨ R.isEmpty
    · simp only [color_pass_inplace]
      rw [if_pos he]
    · rw [hmain he]
      have hfun : (fun x y c =>
          if B.pix x y 0 = 255 ∧ c < 3 then (255 : ℕ) else R.pix x y c) = R.pix := by
        funext x y c
        simp [hz x y]
      rw [hfun]

/-- Witness for C8 on a concrete 1×1 3-channel image and all-255
mask. -/
theorem C8_colour_pass_witness :
    (∃ out : ImgC,
      color_pass_inplace ⟨1, 1, 3, fun _ _ _ => 9⟩ ⟨1, 1, 1, fun _ _ _ => 255⟩ =
        .ok out ∧
      out.W = 1 ∧ out.H = 1 ∧ out.C = 3 ∧
      (∀ x < 1, ∀ y < 1, ∀ c < 3,
        out.pix x y c =
          if (⟨1, 1, 1, fun _ _ _ => 255⟩ : ImgC).pix x y 0 = 255 then 255
          else (⟨1, 1, 3, fun _ _ _ => 9⟩ : ImgC).pix x y c)) ∧
    ((∀ x y, (⟨1, 1, 1, fun _ _ _ => 255⟩ : ImgC).pix x y 0 = 0) →
      color_pass_inplace ⟨1, 1, 3, fun _ _ _ => 9⟩ ⟨1, 1, 1, fun _ _ _ => 255⟩ =
        .ok ⟨1, 1, 3, fun _ _ _ => 9⟩) :=
  C8_colour_pass ⟨1, 1, 3, fun _ _ _ => 9⟩ ⟨1, 1, 1, fun _ _ _ => 255⟩
    rfl rfl rfl rfl

/-! ### C5 — robust contrast stretch -/

theorem find?_range_least {p : ℕ → Bool} {n a : ℕ}
    (h : (List.range n).find? p = some a) :
    p a = true ∧ a < n ∧ ∀ b < a, p b = false := by
  induction n with
  | zero => simp [List.range_zero] at h
  | succ m ih =>
      rw [List.range_succ, List.find?_append] at h
      cases hf : (List.range m).find? p with
      | some c =>
          rw [hf] at h
          have h' : some c = some a := h
          obtain rfl : c = a := by injection h'
          obtain ⟨h1, h2, h3⟩ := ih hf
          exact ⟨h1, Nat.lt_succ_of_lt h2, h3⟩
      | none =>
          rw [hf, Option.none_or] at h
          by_cases hpm : p m = true
          · rw [show ([m] : List ℕ) = m :: [] from rfl,
              List.find?_cons_of_pos _ hpm] at h
            obtain rfl : m = a := by injection h
            refine ⟨hpm, Nat.lt_succ_self m, fun b hb => ?_⟩
            have := List.find?_eq_none.mp hf b (List.mem_range.mpr hb)
            simpa using this
          · rw [show ([m] : List ℕ) = m :: [] from rfl,
              List.find?_cons_of_neg _ hpm] at h
            simp at h

theorem find?_rev_range_greatest {p : ℕ → Bool} {n a : ℕ}
    (h : ((List.range n).reverse).find? p = some a) :
    p a = true ∧ a < n ∧ ∀ b, a < b → b < n → p b = false := by
  induction n with
  | zero => simp at h
  | succ m ih =>
      rw [List.range_succ, List.reverse_append] at h
      simp only [List.reverse_cons, List.reverse_nil, List.nil_append,
        List.singleton_append] at h
      by_cases hpm : p m = true
      · rw [List.find?_cons_of_pos _ hpm] at h
        obtain rfl : m = a := by injection h
        exact ⟨hpm, Nat.lt_succ_self m, fun b h1 h2 => by omega⟩
      · rw [List.find?_cons_of_neg _ hpm] at h
        obtain ⟨h1, h2, h3⟩ := ih h
        refine ⟨h1, Nat.lt_succ_of_lt h2, fun b hab hbn => ?_⟩
        rcases Nat.lt_succ_iff_lt_or_eq.mp hbn with hb | rfl
        · exact h3 b hab hb
        · simpa using hpm

theorem contrastHist_total (img : ImgN) :
    ∑ v ∈ Finset.range 256, contrastHist img v = img.W * img.H := by
  unfold contrastHist
  simp only [Finset.card_filter]
  rw [Finset.sum_comm]
  have inner : ∀ p ∈ Finset.range img.W ×ˢ Finset.range img.H,
      (∑ v ∈ Finset.range 256,
        if min 255 (img.pix p.1 p.2) = v then 1 else 0) = 1 := by
    intro p _
    rw [Finset.sum_ite_eq]
    simp [Finset.mem_range, Nat.lt_succ_iff]
  rw [Finset.sum_congr rfl inner]
  simp [Finset.card_product]

theorem cutoff_lt_iff_q (N c : ℕ) :
    N / 100 < c ↔ (N : ℚ) / 100 < (c : ℚ) := by
  rw [Nat.div_lt_iff_lt_mul (by norm_num : 0 < 100),
    div_lt_iff (by norm_num : (0 : ℚ) < 100)]
  constructor
  · intro h; exact_mod_cast h
  · intro h; exact_mod_cast h

theorem Icc_zero_255_eq_range : Finset.Icc 0 255 = Finset.range 256 := by
  ext v
  simp [Finset.mem_Icc, Finset.mem_range, Nat.lt_succ_iff]

theorem fl32_eval (q : ℚ) (e f : ℤ) (h0 : 0 < q) (he : qexp2 q = e)
    (hf : ⌊q / 2 ^ (e - 23)⌋ = f) (hlt : q / 2 ^ (e - 23) - f < 1/2) :
    fl32 q = (f : ℚ) * 2 ^ (e - 23) := by
  unfold fl32 rne
  rw [if_neg (not_le.mpr h0), he, hf, if_pos hlt]

/-- C5, amended: `contrast_linear_stretch` takes `p1` (resp. `p99`) as
the lowest (resp. highest) intensity whose cumulative count exceeds 1%
of the pixel count, is the identity when `p99 ≤ p1`, and otherwise
maps intensity `i` to `0` for `i ≤ p1`, to `255` for `i ≥ p99`, and
otherwise to the `uint8_t` truncation of the single-precision product
`(i − p1) · fl32(255/(p99 − p1))`, both division and multiplication
rounded to nearest-even binary32 (neither exact rational arithmetic
nor rounding to the nearest integer). -/
theorem C5_contrast_stretch (img : ImgN) (hN : 0 < img.W * img.H)
    (hpix : ∀ x < img.W, ∀ y < img.H, img.pix x y ≤ 255) :
    ((img.W * img.H : ℚ) / 100 < cumLow img (contrastMinVal img) ∧
      ∀ j < contrastMinVal img, (cumLow img j : ℚ) ≤ (img.W * img.H : ℚ) / 100) ∧
    (contrastMaxVal img < 256 ∧
      (img.W * img.H : ℚ) / 100 < cumHigh img (contrastMaxVal img) ∧
      ∀ j < 256, contrastMaxVal img < j →
        (cumHigh img j : ℚ) ≤ (img.W * img.H : ℚ) / 100) ∧
    (contrastMaxVal img ≤ contrastMinVal img → contrast_linear_stretch img = img) ∧
    (contrastMinVal img < contrastMaxVal img → ∀ x < img.W, ∀ y < img.H,
      (contrast_linear_stretch img).pix x y =
        if img.pix x y ≤ contrastMinVal img then 0
        else if contrastMaxVal img ≤ img.pix x y then 255
        else (⌊fl32 (((img.pix x y - contrastMinVal img : ℕ) : ℚ)
          * fl32 ((255 : ℚ)
            / ((contrastMaxVal img - contrastMinVal img : ℕ) : ℚ)))⌋).toNat) := by
  have hcut : contrastCutoff img < img.W * img.H :=
    Nat.div_lt_self hN (by norm_num)
  have hne : ¬ img.isEmpty := by
    intro h
    rcases h with h | h <;> simp [h] at hN
  refine ⟨?_, ?_, ?_, ?_⟩
  · -- min_val characterisation
    have hex : (fun i => decide (contrastCutoff img < cumLow img i)) 255 = true := by
      have h255 : cumLow img 255 = img.W * img.H := by
        unfold cumLow; exact contrastHist_total img
      simp [h255, hcut]
    have hnone : (List.range 256).find?
        (fun i => decide (contrastCutoff img < cumLow img i)) ≠ none := by
      intro hf
      exact absurd hex (by simpa using
        List.find?_eq_none.mp hf 255 (by simp))
    obtain ⟨a, hfind⟩ := Option.ne_none_iff_exists'.mp hnone
    have hmv : contrastMinVal img = a := by
      unfold contrastMinVal; rw [hfind]; rfl
    obtain ⟨h1, _h2, h3⟩ := find?_range_least hfind
    rw [hmv]
    constructor
    · have := (cutoff_lt_iff_q (img.W * img.H) (cumLow img a)).mp
        (by simpa using h1)
      push_cast at this ⊢
      exact this
    · intro j hj
      have := h3 j hj
      have hle : ¬ contrastCutoff img < cumLow img j := by simpa using this
      have hjle : cumLow img j ≤ contrastCutoff img := Nat.le_of_not_lt hle
      by_contra hq
      push_neg at hq
      have hq2 : ((img.W * img.H : ℕ) : ℚ) / 100 < (cumLow img j : ℚ) := by
        push_cast
        exact hq
      have hlt2 : img.W * img.H / 100 < cumLow img j :=
        (cutoff_lt_iff_q _ _).mpr hq2
      have hjle2 : cumLow img j ≤ img.W * img.H / 100 := hjle
      omega
  · -- max_val characterisation
    have hex : (fun i => decide (contrastCutoff img < cumHigh img i)) 0 = true := by
      have h0 : cumHigh img 0 = img.W * img.H := by
        unfold cumHigh
        rw [Icc_zero_255_eq_range]
        exact contrastHist_total img
      simp [h0, hcut]
    have hnone : ((List.range 256).reverse).find?
        (fun i => decide (contrastCutoff img < cumHigh img i)) ≠ none := by
      intro hf
      exact absurd hex (by simpa using
        List.find?_eq_none.mp hf 0 (by simp))
    obtain ⟨a, hfind⟩ := Option.ne_none_iff_exists'.mp hnone
    have hmv : contrastMaxVal img = a := by
      unfold contrastMaxVal; rw [hfind]; rfl
    obtain ⟨h1, h2, h3⟩ := find?_rev_range_greatest hfind
    rw [hmv]
    refine ⟨h2, ?_, ?_⟩
    · have := (cutoff_lt_iff_q (img.W * img.H) (cumHigh img a)).mp
        (by simpa using h1)
      push_cast at this ⊢
      exact this
    · intro j hj haj
      have := h3 j haj hj
      have hle : ¬ contrastCutoff img < cumHigh img j := by simpa using this
      have hjle : cumHigh img j ≤ contrastCutoff img := Nat.le_of_not_lt hle
      by_contra hq
      push_neg at hq
      have hq2 : ((img.W * img.H : ℕ) : ℚ) / 100 < (cumHigh img j : ℚ) := by
        push_cast
        exact hq
      have hlt2 : img.W * img.H / 100 < cumHigh img j :=
        (cutoff_lt_iff_q _ _).mpr hq2
      have hjle2 : cumHigh img j ≤ img.W * img.H / 100 := hjle
      omega
  · intro hle
    unfold contrast_linear_stretch
    rw [if_neg hne, if_pos hle]
  · intro hlt x hx y hy
    unfold contrast_linear_stretch
    rw [if_neg hne, if_neg (Nat.not_le_of_lt hlt)]
    have hclamp : min 255 (img.pix x y) = img.pix x y :=
      Nat.min_eq_right (hpix x hx y hy)
    simp only [hclamp]

/-- Witness for C5 on a concrete 3×1 image. -/
theorem C5_contrast_stretch_witness :
    (((3 : ℕ) * 1 : ℚ) / 100 <
        cumLow ⟨3, 1, fun x _ => x⟩ (contrastMinVal ⟨3, 1, fun x _ => x⟩) ∧
      ∀ j < contrastMinVal ⟨3, 1, fun x _ => x⟩,
        (cumLow ⟨3, 1, fun x _ => x⟩ j : ℚ) ≤ ((3 : ℕ) * 1 : ℚ) / 100) ∧
    (contrastMaxVal ⟨3, 1, fun x _ => x⟩ < 256 ∧
      ((3 : ℕ) * 1 : ℚ) / 100 <
        cumHigh ⟨3, 1, fun x _ => x⟩ (contrastMaxVal ⟨3, 1, fun x _ => x⟩) ∧
      ∀ j < 256, contrastMaxVal ⟨3, 1, fun x _ => x⟩ < j →
        (cumHigh ⟨3, 1, fun x _ => x⟩ j : ℚ) ≤ ((3 : ℕ) * 1 : ℚ) / 100) ∧
    (contrastMaxVal ⟨3, 1, fun x _ => x⟩ ≤ contrastMinVal ⟨3, 1, fun x _ => x⟩ →
      contrast_linear_stretch ⟨3, 1, fun x _ => x⟩ = ⟨3, 1, fun x _ => x⟩) ∧
    (contrastMinVal ⟨3, 1, fun x _ => x⟩ < contrastMaxVal ⟨3, 1, fun x _ => x⟩ →
      ∀ x < 3, ∀ y < 1,
      (contrast_linear_stretch ⟨3, 1, fun x _ => x⟩).pix x y =
        if (⟨3, 1, fun x _ => x⟩ : ImgN).pix x y ≤ contrastMinVal ⟨3, 1, fun x _ => x⟩
        then 0
        else if contrastMaxVal ⟨3, 1, fun x _ => x⟩ ≤
            (⟨3, 1, fun x _ => x⟩ : ImgN).pix x y then 255
        else (⌊fl32 ((((⟨3, 1, fun x _ => x⟩ : ImgN).pix x y
              - contrastMinVal ⟨3, 1, fun x _ => x⟩ : ℕ) : ℚ)
          * fl32 ((255 : ℚ)
            / ((contrastMaxVal ⟨3, 1, fun x _ => x⟩
              - contrastMinVal ⟨3, 1, fun x _ => x⟩ : ℕ) : ℚ)))⌋).toNat) :=
  C5_contrast_stretch ⟨3, 1, fun x _ => x⟩ (by decide)
    (by intro x hx y hy; interval_cases x <;> simp)

set_option maxRecDepth 8000 in
/-- C5, counterexample to the claim as stated: on the 3×1 image with
samples (0, 200, 254) the percentiles are `p1 = 0`, `p99 = 254`, and
the middle pixel maps to 200 (the float32 LUT entry
`200 · fl32(255/254) = 13158803/65536 ≈ 200.787` is truncated by the
`uint8_t` cast), whereas the claim's `round(255·200/254) = 201`. -/
theorem C5_contrast_stretch_counterexample :
    contrastMinVal ⟨3, 1, fun x _ => if x = 0 then 0 else if x = 1 then 200 else 254⟩ = 0 ∧
    contrastMaxVal ⟨3, 1, fun x _ => if x = 0 then 0 else if x = 1 then 200 else 254⟩ = 254 ∧
    (contrast_linear_stretch
      ⟨3, 1, fun x _ => if x = 0 then 0 else if x = 1 then 200 else 254⟩).pix 1 0 = 200 ∧
    round ((255 : ℚ) * (200 - 0) / (254 - 0)) = 201 := by
  have h1 : contrastMinVal ⟨3, 1, fun x _ => if x = 0 then 0 else if x = 1 then 200 else 254⟩ = 0 := by decide
  have h2 : contrastMaxVal ⟨3, 1, fun x _ => if x = 0 then 0 else if x = 1 then 200 else 254⟩ = 254 := by decide
  refine ⟨h1, h2, ?_, by norm_num [round_eq]⟩
  have hs : fl32 ((255 : ℚ) / 254) = 4210817 / 4194304 := by
    rw [fl32_eval ((255 : ℚ) / 254) 0 8421634 (by norm_num)
      (by norm_num [qexp2]) (Int.floor_eq_iff.mpr ⟨by norm_num, by norm_num⟩)
      (by norm_num)]
    norm_num
  have hp : fl32 ((200 : ℚ) * (4210817 / 4194304)) = 13158803 / 65536 := by
    rw [fl32_eval ((200 : ℚ) * (4210817 / 4194304)) 7 13158803 (by norm_num)
      (by norm_num [qexp2]) (Int.floor_eq_iff.mpr ⟨by norm_num, by norm_num⟩)
      (by norm_num)]
    norm_num
  have hval : (⌊fl32 ((200 : ℚ) * fl32 ((255 : ℚ) / 254))⌋).toNat = 200 := by
    rw [hs, hp, Int.floor_eq_iff.mpr
      (⟨by norm_num, by norm_num⟩ : ((200 : ℤ) : ℚ) ≤ 13158803 / 65536 ∧
        (13158803 / 65536 : ℚ) < 200 + 1)]
    rfl
  unfold contrast_linear_stretch
  rw [if_neg (by decide)]
  simp only [h1, h2]
  rw [if_neg (by norm_num : ¬ (254 : ℕ) ≤ 0)]
  show (if min 255 ((⟨3, 1, fun x _ => if x = 0 then 0 else if x = 1 then 200 else 254⟩ : ImgN).pix 1 0) ≤ 0 then 0
    else if 254 ≤ min 255 ((⟨3, 1, fun x _ => if x = 0 then 0 else if x = 1 then 200 else 254⟩ : ImgN).pix 1 0) then 255
    else (⌊fl32 (((min 255 ((⟨3, 1, fun x _ => if x = 0 then 0 else if x = 1 then 200 else 254⟩ : ImgN).pix 1 0) - 0 : ℕ) : ℚ)
      * fl32 ((255 : ℚ) / ((254 - 0 : ℕ) : ℚ)))⌋).toNat) = 200
  norm_num
  exact hval

/-! ### C3 — Sauvola refinement -/

theorem var_expand {α : Type} (s : Finset α) (hs : s.Nonempty) (g : α → ℚ) :
    (∑ p ∈ s, (g p - (∑ q ∈ s, g q) / (s.card : ℚ)) ^ 2) / (s.card : ℚ)
      = (∑ p ∈ s, g p * g p) / (s.card : ℚ)
        - ((∑ p ∈ s, g p) / (s.card : ℚ)) * ((∑ p ∈ s, g p) / (s.card : ℚ)) := by
  have hc : (0 : ℚ) < (s.card : ℚ) := by exact_mod_cast Finset.card_pos.mpr hs
  have hne : (s.card : ℚ) ≠ 0 := ne_of_gt hc
  have hcong : ∀ p ∈ s, (g p - (∑ q ∈ s, g q) / (s.card : ℚ)) ^ 2
      = g p * g p - 2 * ((∑ q ∈ s, g q) / (s.card : ℚ)) * g p
        + ((∑ q ∈ s, g q) / (s.card : ℚ)) ^ 2 := fun p _ => by ring
  have expand : ∑ p ∈ s, (g p - (∑ q ∈ s, g q) / (s.card : ℚ)) ^ 2
      = (∑ p ∈ s, g p * g p)
        - 2 * ((∑ q ∈ s, g q) / (s.card : ℚ)) * (∑ q ∈ s, g q)
        + (s.card : ℚ) * ((∑ q ∈ s, g q) / (s.card : ℚ)) ^ 2 := by
    rw [Finset.sum_congr rfl hcong, Finset.sum_add_distrib,
      Finset.sum_sub_distrib, ← Finset.mul_sum, Finset.sum_const,
      nsmul_eq_mul]
  rw [expand]
  field_simp
  ring

/-- C3: the integral-image Sauvola binarizer equals the direct
window-statistics specification: each output pixel is 255 exactly when
its sample exceeds `μ·(1 + k·(σ/128 − 1)) − δ` with `μ`, `σ` the mean
and standard deviation over the clamped `w × w` window, and the
returned image (the output assigned back onto the input) has the
input's dimensions. -/
theorem C3_sauvola_matches_spec (input : ImgN) (w : ℕ) (hw3 : 3 ≤ w)
    (hodd : Odd w) (k delta : ℚ) (hk : 0 < k) :
    (binarize_sauvola input w k delta).W = input.W ∧
    (binarize_sauvola input w k delta).H = input.H ∧
    ∀ x < input.W, ∀ y < input.H,
      (binarize_sauvola input w k delta).pix x y =
        (sauvola_spec input w k delta).pix x y := by
  refine ⟨rfl, rfl, ?_⟩
  intro x hx y hy
  simp only [binarize_sauvola, sauvola_spec]
  set x1 := x - w / 2 with hx1e
  set y1 := y - w / 2 with hy1e
  set x2 := min (input.W - 1) (x + w / 2) with hx2e
  set y2 := min (input.H - 1) (y + w / 2) with hy2e
  set win := Finset.Icc x1 x2 ×ˢ Finset.Icc y1 y2 with hwine
  have hx12 : x1 ≤ x2 := by omega
  have hy12 : y1 ≤ y2 := by omega
  have hx2W : x2 < input.W := by omega
  have hy2H : y2 < input.H := by omega
  have hwinne : win.Nonempty := by
    rw [hwine]
    exact Finset.Nonempty.product
      (Finset.nonempty_Icc.mpr hx12) (Finset.nonempty_Icc.mpr hy12)
  have hsum : get_area_sum (calculate_integral_image input.toQ) x1 y1 x2 y2
      = ∑ p ∈ win, (input.pix p.1 p.2 : ℚ) := by
    rw [get_area_sum_rect input.toQ x1 y1 x2 y2 hx12 hy12, hwine,
      Finset.sum_product]
    rfl
  have hsumsq : get_area_sum (calculate_integral_image input.toQ.sqr) x1 y1 x2 y2
      = ∑ p ∈ win, (input.pix p.1 p.2 : ℚ) * (input.pix p.1 p.2 : ℚ) := by
    rw [get_area_sum_rect input.toQ.sqr x1 y1 x2 y2 hx12 hy12, hwine,
      Finset.sum_product]
    rfl
  have hNcard : (x2 - x1 + 1) * (y2 - y1 + 1) = win.card := by
    rw [hwine, Finset.card_product, Nat.card_Icc, Nat.card_Icc]
    have e1 : x2 + 1 - x1 = x2 - x1 + 1 := by omega
    have e2 : y2 + 1 - y1 = y2 - y1 + 1 := by omega
    rw [e1, e2]
  have hN : (((x2 - x1 + 1) * (y2 - y1 + 1) : ℕ) : ℚ) = (win.card : ℚ) := by
    exact_mod_cast congrArg (fun n : ℕ => (n : ℚ)) hNcard
  rw [hsum, hsumsq, hN]
  have hvar : max 0 ((∑ p ∈ win, (input.pix p.1 p.2 : ℚ) * (input.pix p.1 p.2 : ℚ))
        / (win.card : ℚ)
      - ((∑ p ∈ win, (input.pix p.1 p.2 : ℚ)) / (win.card : ℚ))
        * ((∑ p ∈ win, (input.pix p.1 p.2 : ℚ)) / (win.card : ℚ)))
      = (∑ p ∈ win, ((input.pix p.1 p.2 : ℚ)
          - (∑ q ∈ win, (input.pix q.1 q.2 : ℚ)) / (win.card : ℚ)) ^ 2)
        / (win.card : ℚ) := by
    rw [← var_expand win hwinne (fun p => (input.pix p.1 p.2 : ℚ))]
    refine max_eq_right ?_
    have hc : (0 : ℚ) < (win.card : ℚ) := by
      exact_mod_cast Finset.card_pos.mpr hwinne
    positivity
  rw [hvar]
  norm_num

/-- Witness for C3 on a concrete 1×1 image with `w = 3`, `k = 1/5`,
`δ = 0`. -/
theorem C3_sauvola_matches_spec_witness :
    (binarize_sauvola ⟨1, 1, fun _ _ => 5⟩ 3 (1/5) 0).W = 1 ∧
    (binarize_sauvola ⟨1, 1, fun _ _ => 5⟩ 3 (1/5) 0).H = 1 ∧
    ∀ x < 1, ∀ y < 1,
      (binarize_sauvola ⟨1, 1, fun _ _ => 5⟩ 3 (1/5) 0).pix x y =
        (sauvola_spec ⟨1, 1, fun _ _ => 5⟩ 3 (1/5) 0).pix x y :=
  C3_sauvola_matches_spec ⟨1, 1, fun _ _ => 5⟩ 3 (by decide) (by decide)
    (1/5) 0 (by norm_num)

/-! ### C2 — Otsu threshold and polarity -/

theorem otsuWBp_succ (g : ImgN) (t : ℕ) :
    otsuWBp g (t + 1) = otsuWBp g t + otsuHist g t :=
  Finset.sum_range_succ _ t

theorem otsuSumBp_succ (g : ImgN) (t : ℕ) :
    otsuSumBp g (t + 1) = otsuSumBp g t + (t : ℚ) * (otsuHist g t : ℚ) :=
  Finset.sum_range_succ _ t

theorem otsuWBp_mono (g : ImgN) {a b : ℕ} (h : a ≤ b) :
    otsuWBp g a ≤ otsuWBp g b :=
  Finset.sum_le_sum_of_subset (Finset.range_subset.mpr h)

theorem otsuVar_nonneg (g : ImgN) (t : ℕ) : 0 ≤ otsuVar g t := by
  unfold otsuVar
  rw [mul_assoc]
  exact mul_nonneg (mul_nonneg (by positivity) (by positivity))
    (mul_self_nonneg _)

theorem otsuLoop_correct (g : ImgN) :
    ∀ (fuel t : ℕ) (mb : ℚ) (bt r : ℕ), fuel + t = 256 →
    OtsuInv g t mb bt →
    r = otsuLoop (otsuHist g) (g.W * g.H) (otsuSumAll g) fuel t
      (otsuWBp g t) (otsuSumBp g t) mb bt →
    ((∀ s < 256, ¬otsuValid g s) → r = 128) ∧
    ((∃ s0, s0 < 256 ∧ otsuValid g s0) → OtsuBestSpec g r) := by
  intro fuel
  induction fuel with
  | zero =>
      intro t mb bt r hft hinv hr
      have ht : t = 256 := by omega
      subst ht
      simp only [otsuLoop] at hr
      subst hr
      constructor
      · intro hall
        rcases hinv with ⟨_, _, hbt⟩ | ⟨hv, hlt, _⟩
        · exact hbt
        · exact absurd hv (hall r (by omega))
      · rintro ⟨s0, hs0, hv0⟩
        rcases hinv with ⟨hAll, _, _⟩ | ⟨hv, hlt, hmb, hmax, hleast⟩
        · exact absurd hv0 (hAll s0 hs0)
        · refine ⟨hv, by omega, ?_, ?_⟩
          · intro s hs hvs
            exact hmb ▸ hmax s hs hvs
          · intro s hs hvs heq
            exact hleast s hs hvs (by rw [heq, hmb])
  | succ n ih =>
      intro t mb bt r hft hinv hr
      have ht : t < 256 := by omega
      simp only [otsuLoop] at hr
      rw [← otsuWBp_succ g t] at hr
      by_cases h0 : otsuWBp g (t + 1) = 0
      · rw [if_pos h0] at hr
        have hhist : otsuHist g t = 0 := by
          have := otsuWBp_succ g t; omega
        have hsum0 : otsuSumBp g t = otsuSumBp g (t + 1) := by
          rw [otsuSumBp_succ, hhist]
          simp
        rw [hsum0] at hr
        have hvt : ¬otsuValid g t := fun hv => by
          rcases hv with ⟨h1, _⟩; omega
        have hinv' : OtsuInv g (t + 1) mb bt := by
          rcases hinv with ⟨hAll, h1, h2⟩ | ⟨hv, hlt, hmb, hmax, hleast⟩
          · refine Or.inl ⟨?_, h1, h2⟩
            intro s hs
            rcases Nat.lt_succ_iff_lt_or_eq.mp hs with hs' | rfl
            · exact hAll s hs'
            · exact hvt
          · refine Or.inr ⟨hv, by omega, hmb, ?_, ?_⟩
            · intro s hs hvs
              rcases Nat.lt_succ_iff_lt_or_eq.mp hs with hs' | rfl
              · exact hmax s hs' hvs
              · exact absurd hvs hvt
            · intro s hs hvs heq
              rcases Nat.lt_succ_iff_lt_or_eq.mp hs with hs' | rfl
              · exact hleast s hs' hvs heq
              · exact absurd hvs hvt
        exact ih (t + 1) mb bt r (by omega) hinv' hr
      · rw [if_neg h0] at hr
        by_cases hwf : g.W * g.H - otsuWBp g (t + 1) = 0
        · rw [if_pos hwf] at hr
          subst hr
          have hinvalid : ∀ s, t ≤ s → ¬otsuValid g s := by
            intro s hts hv
            have h1 : otsuWBp g (t + 1) ≤ otsuWBp g (s + 1) :=
              otsuWBp_mono g (by omega)
            rcases hv with ⟨_, h2⟩
            omega
          constructor
          · intro hall
            rcases hinv with ⟨_, _, hbt⟩ | ⟨hv, hlt, _⟩
            · exact hbt
            · exact absurd hv (hall r (by omega))
          · rintro ⟨s0, hs0, hv0⟩
            rcases hinv with ⟨hAll, _, _⟩ | ⟨hv, hlt, hmb, hmax, hleast⟩
            · by_cases hs0t : s0 < t
              · exact absurd hv0 (hAll s0 hs0t)
              · exact absurd hv0 (hinvalid s0 (by omega))
            · refine ⟨hv, by omega, ?_, ?_⟩
              · intro s hs hvs
                by_cases hst : s < t
                · exact hmb ▸ hmax s hst hvs
                · exact absurd hvs (hinvalid s (by omega))
              · intro s hs hvs heq
                by_cases hst : s < t
                · exact hleast s hst hvs (by rw [heq, hmb])
                · exact absurd hvs (hinvalid s (by omega))
        · rw [if_neg hwf] at hr
          rw [← otsuSumBp_succ g t] at hr
          have hvt : otsuValid g t := ⟨Nat.pos_of_ne_zero h0, by omega⟩
          have hbet : 0 ≤ otsuVar g t := otsuVar_nonneg g t
          by_cases hcmp : mb < (otsuWBp g (t + 1) : ℚ)
              * ((g.W * g.H - otsuWBp g (t + 1) : ℕ) : ℚ)
              * (otsuSumBp g (t + 1) / (otsuWBp g (t + 1) : ℚ)
                  - (otsuSumAll g - otsuSumBp g (t + 1))
                    / ((g.W * g.H - otsuWBp g (t + 1) : ℕ) : ℚ))
              * (otsuSumBp g (t + 1) / (otsuWBp g (t + 1) : ℚ)
                  - (otsuSumAll g - otsuSumBp g (t + 1))
                    / ((g.W * g.H - otsuWBp g (t + 1) : ℕ) : ℚ))
          · rw [if_pos hcmp] at hr
            have hinv' : OtsuInv g (t + 1) (otsuVar g t) t := by
              refine Or.inr ⟨hvt, by omega, rfl, ?_, ?_⟩
              · intro s hs hvs
                rcases Nat.lt_succ_iff_lt_or_eq.mp hs with hs' | rfl
                · rcases hinv with ⟨hAll, _, _⟩ | ⟨_, _, hmb, hmax, _⟩
                  · exact absurd hvs (hAll s hs')
                  · exact le_of_lt (lt_of_le_of_lt (hmax s hs' hvs) hcmp)
                · exact le_refl _
              · intro s hs hvs heq
                rcases Nat.lt_succ_iff_lt_or_eq.mp hs with hs' | rfl
                · rcases hinv with ⟨hAll, _, _⟩ | ⟨_, _, hmb, hmax, _⟩
                  · exact absurd hvs (hAll s hs')
                  · exact absurd heq (ne_of_lt (lt_of_le_of_lt (hmax s hs' hvs) hcmp))
                · exact le_refl _
            exact ih (t + 1) (otsuVar g t) t r (by omega) hinv' hr
          · rw [if_neg hcmp] at hr
            rcases hinv with ⟨hAll, hmbv, hbtv⟩ | ⟨hv, hlt, hmb, hmax, hleast⟩
            · exact absurd (lt_of_lt_of_le (by rw [hmbv]; norm_num) hbet) hcmp
            · have hle : otsuVar g t ≤ mb := le_of_not_lt hcmp
              have hinv' : OtsuInv g (t + 1) mb bt := by
                refine Or.inr ⟨hv, by omega, hmb, ?_, ?_⟩
                · intro s hs hvs
                  rcases Nat.lt_succ_iff_lt_or_eq.mp hs with hs' | rfl
                  · exact hmax s hs' hvs
                  · exact hle
                · intro s hs hvs heq
                  rcases Nat.lt_succ_iff_lt_or_eq.mp hs with hs' | rfl
                  · exact hleast s hs' hvs heq
                  · omega
              exact ih (t + 1) mb bt r (by omega) hinv' hr

theorem compute_otsu_threshold_spec (g : ImgN)
    (h : ∃ t, t < 256 ∧ otsuValid g t) :
    OtsuBestSpec g (compute_otsu_threshold g) := by
  obtain ⟨t0, ht0, hv0⟩ := h
  have hN : ¬ g.W * g.H = 0 := by
    have := hv0.2; omega
  unfold compute_otsu_threshold
  rw [if_neg hN]
  have h0w : otsuWBp g 0 = 0 := by simp [otsuWBp]
  have h0s : otsuSumBp g 0 = 0 := by simp [otsuSumBp]
  have := otsuLoop_correct g 256 0 (-1) 128
    (otsuLoop (otsuHist g) (g.W * g.H) (otsuSumAll g) 256 0
      (otsuWBp g 0) (otsuSumBp g 0) (-1) 128)
    rfl (Or.inl ⟨fun s hs => absurd hs (Nat.not_lt_zero s), rfl, rfl⟩) rfl
  rw [h0w, h0s] at this
  exact this.2 ⟨t0, ht0, hv0⟩

theorem histEx (v : ℕ) :
    otsuHist otsuExample v
      = (if v = 50 then 2 else 0) + (if v = 200 then 2 else 0) := by
  by_cases h50 : v = 50
  · subst h50; decide
  · by_cases h200 : v = 200
    · subst h200; decide
    · rw [if_neg h50, if_neg h200]
      unfold otsuHist
      rw [Finset.card_eq_zero, Finset.filter_eq_empty_iff]
      intro p hp
      simp only [otsuExample] at hp ⊢
      rw [Finset.mem_product, Finset.mem_range, Finset.mem_range] at hp
      rcases hp with ⟨hx, _⟩
      interval_cases h : p.1 <;> simp [h] <;> omega

theorem wbpEx (t : ℕ) :
    otsuWBp otsuExample t
      = (if 50 < t then 2 else 0) + (if 200 < t then 2 else 0) := by
  unfold otsuWBp
  rw [Finset.sum_congr rfl (fun v _ => histEx v), Finset.sum_add_distrib,
    Finset.sum_ite_eq' (Finset.range t) 50 (fun _ => 2),
    Finset.sum_ite_eq' (Finset.range t) 200 (fun _ => 2)]
  simp [Finset.mem_range]

theorem sumbpTermEx (v : ℕ) :
    (v : ℚ) * (otsuHist otsuExample v : ℚ)
      = (if v = 50 then (100 : ℚ) else 0) + (if v = 200 then 400 else 0) := by
  rw [histEx]
  by_cases h50 : v = 50
  · subst h50; norm_num
  · by_cases h200 : v = 200
    · subst h200; norm_num
    · simp [h50, h200]

theorem sumbpEx (t : ℕ) :
    otsuSumBp otsuExample t
      = (if 50 < t then (100 : ℚ) else 0) + (if 200 < t then 400 else 0) := by
  unfold otsuSumBp
  rw [Finset.sum_congr rfl (fun v _ => sumbpTermEx v), Finset.sum_add_distrib,
    Finset.sum_ite_eq' (Finset.range t) 50 (fun _ => (100 : ℚ)),
    Finset.sum_ite_eq' (Finset.range t) 200 (fun _ => (400 : ℚ))]
  simp [Finset.mem_range]

theorem sumAllEx : otsuSumAll otsuExample = 500 := by
  unfold otsuSumAll
  rw [Finset.sum_congr rfl (fun v _ => sumbpTermEx v), Finset.sum_add_distrib,
    Finset.sum_ite_eq' (Finset.range 256) 50 (fun _ => (100 : ℚ)),
    Finset.sum_ite_eq' (Finset.range 256) 200 (fun _ => (400 : ℚ))]
  norm_num

theorem validEx (t : ℕ) :
    otsuValid otsuExample t ↔ 50 ≤ t ∧ t < 200 := by
  unfold otsuValid
  rw [wbpEx]
  show 0 < _ ∧ _ < otsuExample.W * otsuExample.H ↔ _
  by_cases h1 : 50 < t + 1 <;> by_cases h2 : 200 < t + 1 <;>
    simp [h1, h2, otsuExample] <;> omega

theorem varEx (t : ℕ) (h : otsuValid otsuExample t) :
    otsuVar otsuExample t = 90000 := by
  obtain ⟨h1, h2⟩ := (validEx t).mp h
  unfold otsuVar
  rw [wbpEx, sumbpEx, sumAllEx]
  rw [if_pos (by omega : 50 < t + 1), if_neg (by omega : ¬ 200 < t + 1)]
  show ((2 + 0 : ℕ) : ℚ) * ((otsuExample.W * otsuExample.H - (2 + 0) : ℕ) : ℚ) * _ * _ = _
  rw [if_pos (by omega : 50 < t + 1), if_neg (by omega : ¬ 200 < t + 1)]
  norm_num [otsuExample]

theorem otsuThresholdEx : compute_otsu_threshold otsuExample = 50 := by
  obtain ⟨hvr, hr256, hmax, hleast⟩ :=
    compute_otsu_threshold_spec otsuExample
      ⟨50, by omega, (validEx 50).mpr (by omega)⟩
  have h50 : otsuValid otsuExample 50 := (validEx 50).mpr (by omega)
  have hvar : otsuVar otsuExample 50
      = otsuVar otsuExample (compute_otsu_threshold otsuExample) := by
    rw [varEx 50 h50, varEx _ hvr]
  have hle : compute_otsu_threshold otsuExample ≤ 50 :=
    hleast 50 (by omega) h50 hvar
  have hge : 50 ≤ compute_otsu_threshold otsuExample := ((validEx _).mp hvr).1
  omega

theorem borderMeanEx : compute_border_mean otsuExample = 125 := by
  unfold compute_border_mean
  rw [if_neg (by decide), if_neg (by decide),
    show borderSum otsuExample = 500 from by decide,
    show borderCnt otsuExample = 4 from by decide]
  norm_num

set_option maxRecDepth 8000 in
/-- C2: `compute_otsu_threshold` returns the valid candidate
maximising the between-class variance `w_b·w_f·(m_b−m_f)²` with ties
broken toward the lowest `t` (whenever some candidate splits the
histogram into two non-empty classes); `binarize_otsu` combines it
with the border mean (5% strip, stride-2 subsampling, built into
`compute_border_mean`) to write 0 on foreground — `pixel ≤ t` when the
border mean exceeds `t`, `pixel > t` otherwise — and 255 elsewhere;
and on the 4×1 image (50, 50, 200, 200) the output is
(0, 0, 255, 255). -/
theorem C2_binarize_otsu :
    (∀ g : ImgN, (∃ t, t < 256 ∧ otsuValid g t) →
      OtsuBestSpec g (compute_otsu_threshold g)) ∧
    (∀ g : ImgN, (binarize_otsu g).W = g.W ∧ (binarize_otsu g).H = g.H ∧
      ∀ x y, (binarize_otsu g).pix x y =
        if (if (compute_otsu_threshold g : ℚ) < compute_border_mean g
            then g.pix x y % 256 ≤ compute_otsu_threshold g
            else compute_otsu_threshold g < g.pix x y % 256)
        then 0 else 255) ∧
    ((binarize_otsu otsuExample).pix 0 0 = 0 ∧
      (binarize_otsu otsuExample).pix 1 0 = 0 ∧
      (binarize_otsu otsuExample).pix 2 0 = 255 ∧
      (binarize_otsu otsuExample).pix 3 0 = 255) := by
  have hpix : ∀ x y, (binarize_otsu otsuExample).pix x y
      = if otsuExample.pix x y % 256 ≤ 50 then 0 else 255 := by
    intro x y
    simp only [binarize_otsu, otsuThresholdEx, borderMeanEx]
    norm_num
  refine ⟨fun g h => compute_otsu_threshold_spec g h,
    fun g => ⟨rfl, rfl, fun x y => rfl⟩, ?_, ?_, ?_, ?_⟩ <;>
    rw [hpix] <;> decide

/-- Witness for C2 (the least-argmax part has a hypothesis): the
example image has the valid candidate 50. -/
theorem C2_binarize_otsu_witness :
    OtsuBestSpec otsuExample (compute_otsu_threshold otsuExample) :=
  C2_binarize_otsu.1 otsuExample ⟨50, by decide, by decide⟩

/-! ### C7 — deskew gate -/

theorem foldl_argmax_spec {α : Type} (itm : ℕ → α) (v : ℕ → ℚ)
    (g : α × ℚ → ℕ → α × ℚ)
    (hg : ∀ b i, g b i = if b.2 < v i then (itm i, v i) else b) :
    ∀ (n : ℕ) (a0 : α) (m0 : ℚ),
    ((List.range n).foldl g (a0, m0) = (a0, m0) ∧ ∀ i < n, v i ≤ m0) ∨
    (∃ i0, i0 < n ∧ (List.range n).foldl g (a0, m0) = (itm i0, v i0) ∧
      m0 < v i0 ∧ (∀ i < n, v i ≤ v i0) ∧ ∀ i < i0, v i < v i0) := by
  intro n
  induction n with
  | zero =>
      intro a0 m0
      exact Or.inl ⟨rfl, fun i hi => absurd hi (Nat.not_lt_zero i)⟩
  | succ m ih =>
      intro a0 m0
      rw [List.range_succ, List.foldl_append, List.foldl_cons, List.foldl_nil]
      rcases ih a0 m0 with ⟨hr, hall⟩ | ⟨i0, hi0, hr, hm0, hmax, hstrict⟩
      · rw [hr, hg]
        by_cases hc : m0 < v m
        · rw [if_pos hc]
          refine Or.inr ⟨m, Nat.lt_succ_self m, rfl, hc, ?_, ?_⟩
          · intro i hi
            rcases Nat.lt_succ_iff_lt_or_eq.mp hi with h | rfl
            · exact le_trans (hall i h) (le_of_lt hc)
            · exact le_refl _
          · intro i hi
            exact lt_of_le_of_lt (hall i hi) hc
        · rw [if_neg hc]
          refine Or.inl ⟨rfl, ?_⟩
          intro i hi
          rcases Nat.lt_succ_iff_lt_or_eq.mp hi with h | rfl
          · exact hall i h
          · exact le_of_not_lt hc
      · rw [hr, hg]
        by_cases hc : v i0 < v m
        · rw [if_pos hc]
          refine Or.inr ⟨m, Nat.lt_succ_self m, rfl, lt_trans hm0 hc, ?_, ?_⟩
          · intro i hi
            rcases Nat.lt_succ_iff_lt_or_eq.mp hi with h | rfl
            · exact le_trans (hmax i h) (le_of_lt hc)
            · exact le_refl _
          · intro i hi
            rcases Nat.lt_or_ge i i0 with h | h
            · exact lt_trans (hstrict i h) hc
            · exact lt_of_le_of_lt (hmax i (by omega)) hc
        · rw [if_neg hc]
          refine Or.inr ⟨i0, Nat.lt_succ_of_lt hi0, rfl, hm0, ?_, hstrict⟩
          intro i hi
          rcases Nat.lt_succ_iff_lt_or_eq.mp hi with h | rfl
          · exact hmax i h
          · exact le_of_not_lt hc

theorem search_best_angle_spec (sc : ℚ → ℚ) (sd ed st : ℚ) (hst : 0 < st)
    (hse : sd ≤ ed) :
    (search_best_angle sc sd ed st = (0, -1) ∧
      ∀ i < (⌊(ed - sd) / st⌋).toNat + 1, sc (sd + i * st) ≤ -1) ∨
    (∃ i0, i0 < (⌊(ed - sd) / st⌋).toNat + 1 ∧
      search_best_angle sc sd ed st = (sd + i0 * st, sc (sd + i0 * st)) ∧
      (-1 : ℚ) < sc (sd + i0 * st) ∧
      (∀ i < (⌊(ed - sd) / st⌋).toNat + 1,
        sc (sd + i * st) ≤ sc (sd + i0 * st)) ∧
      ∀ i < i0, sc (sd + i * st) < sc (sd + i0 * st)) := by
  have hns : ¬ ed < sd := not_lt.mpr hse
  unfold search_best_angle
  rw [if_neg (not_le.mpr hst), if_neg hns, if_neg hns]
  exact foldl_argmax_spec (fun i => sd + i * st) (fun i => sc (sd + i * st))
    _ (fun b i => rfl) ((⌊(ed - sd) / st⌋).toNat + 1) 0 (-1)

theorem floor_toNat_helper (q : ℚ) (n : ℕ) (h : q = n) :
    (⌊q⌋).toNat + 1 = n + 1 := by
  rw [h, show ((n : ℚ)) = ((n : ℤ) : ℚ) from by push_cast; ring,
    Int.floor_intCast]
  simp

theorem searchC_eq (sd ed st : ℚ) (hst : 0 < st) (hse : sd ≤ ed)
    (hhit : ∃ j, j < (⌊(ed - sd) / st⌋).toNat + 1 ∧ sd + j * st = 1) :
    search_best_angle scoreC sd ed st = (1, 1003) := by
  rcases search_best_angle_spec scoreC sd ed st hst hse with
    ⟨_, hall⟩ | ⟨i0, _, hr, _, hmax, _⟩
  · obtain ⟨j, hj, hjv⟩ := hhit
    have := hall j hj
    rw [hjv] at this
    norm_num [scoreC] at this
  · obtain ⟨j, hj, hjv⟩ := hhit
    have h1 : scoreC (sd + j * st) = 1003 := by rw [hjv]; simp [scoreC]
    have h3 : (1003 : ℚ) ≤ scoreC (sd + i0 * st) := h1 ▸ hmax j hj
    have h2 : scoreC (sd + i0 * st) ≤ 1003 := by
      unfold scoreC
      split <;> norm_num
    have h4 : scoreC (sd + i0 * st) = 1003 := le_antisymm h2 h3
    have h5 : sd + i0 * st = 1 := by
      by_contra hne
      simp only [scoreC] at h4
      rw [if_neg hne] at h4
      norm_num at h4
    rw [hr, h5]
    norm_num [scoreC]

theorem deskewSearchC : deskew_search scoreC = (1, 1003) := by
  have e1 : search_best_angle scoreC (-15) 15 1 = (1, 1003) :=
    searchC_eq (-15) 15 1 (by norm_num) (by norm_num)
      ⟨16, by rw [floor_toNat_helper _ 30 (by norm_num)]; omega, by norm_num⟩
  have e2 : search_best_angle scoreC ((1 : ℚ) - 1) ((1 : ℚ) + 1) (1/5)
      = (1, 1003) :=
    searchC_eq ((1 : ℚ) - 1) ((1 : ℚ) + 1) (1/5) (by norm_num) (by norm_num)
      ⟨5, by rw [floor_toNat_helper _ 10 (by norm_num)]; omega, by norm_num⟩
  have e3 : search_best_angle scoreC ((1 : ℚ) - 3/10) ((1 : ℚ) + 3/10) (1/20)
      = (1, 1003) :=
    searchC_eq ((1 : ℚ) - 3/10) ((1 : ℚ) + 3/10) (1/20) (by norm_num)
      (by norm_num)
      ⟨6, by rw [floor_toNat_helper _ 12 (by norm_num)]; omega, by norm_num⟩
  unfold deskew_search
  rw [e1]
  show search_best_angle scoreC
      ((search_best_angle scoreC ((1 : ℚ) - 1) ((1 : ℚ) + 1) (1/5)).1 - 3/10)
      ((search_best_angle scoreC ((1 : ℚ) - 1) ((1 : ℚ) + 1) (1/5)).1 + 3/10)
      (1/20) = (1, 1003)
  rw [e2]
  exact e3

/-- C7, counterexample to the claim as stated: with the score
function `scoreC` (1003 at 1°, 1000 elsewhere) the three-pass search
returns best score 1003, which does **not** exceed
`score(0°)·1.005 = 1005` — so the claim predicts "leave unchanged" —
yet the deskew gate fires (1003 > 1000 + 1e-9 and 1003 ≥ 1002 =
1000·1.002) and the image is rotated. -/
theorem C7_deskew_counterexample :
    deskew_search scoreC = (1, 1003) ∧
    ¬ (scoreC 0 * (201/200) < (deskew_search scoreC).2) ∧
    deskew_apply rotMark scoreC ⟨1, 1, fun _ _ => 0⟩ ≠ ⟨1, 1, fun _ _ => 0⟩ := by
  refine ⟨deskewSearchC, ?_, ?_⟩
  · rw [deskewSearchC]
    norm_num [scoreC]
  · intro h
    have h2 : deskew_apply rotMark scoreC ⟨1, 1, fun _ _ => 0⟩
        = rotMark ⟨1, 1, fun _ _ => 0⟩ 1 := by
      simp only [deskew_apply, deskewSearchC]
      rw [if_pos (⟨by norm_num, by norm_num [scoreC],
        Or.inr (by norm_num [scoreC])⟩ :
          (1 : ℚ)/20 < |((1 : ℚ), (1003 : ℚ)).1| ∧
          (scoreC 0 + 1/1000000000 < ((1 : ℚ), (1003 : ℚ)).2 ∧
            (scoreC 0 ≤ 0 ∨ scoreC 0 * (501/500) ≤ ((1 : ℚ), (1003 : ℚ)).2)))]
    rw [h2] at h
    have := congrArg (fun i : ImgN => i.pix 0 0) h
    simp [rotMark] at this

/-- C7, amended: the deskew operation rotates by `best_angle` **iff**
`|best_angle| > 0.05°` and `best_score > score(0°) + 1e-9` and
(`score(0°) ≤ 0` or `best_score ≥ score(0°)·1.002`) — the gate is a
0.2% improvement plus a minimal-angle test, not a 1.005 factor — where
`(best_angle, best_score)` comes from the three-pass coarse-to-fine
search, each pass returning the sampled angle of maximal score
(earliest on ties). -/
theorem C7_deskew_gate (rot : ImgN → ℚ → ImgN) (score : ℚ → ℚ) (img : ImgN) :
    ((1/20 < |(deskew_search score).1| ∧
        (score 0 + 1/1000000000 < (deskew_search score).2 ∧
          (score 0 ≤ 0 ∨ score 0 * (501/500) ≤ (deskew_search score).2))) →
      deskew_apply rot score img = rot img (deskew_search score).1) ∧
    (¬ (1/20 < |(deskew_search score).1| ∧
        (score 0 + 1/1000000000 < (deskew_search score).2 ∧
          (score 0 ≤ 0 ∨ score 0 * (501/500) ≤ (deskew_search score).2))) →
      deskew_apply rot score img = img) ∧
    (∀ (sc : ℚ → ℚ) (sd ed st : ℚ), 0 < st → sd ≤ ed →
      (search_best_angle sc sd ed st = (0, -1) ∧
        ∀ i < (⌊(ed - sd) / st⌋).toNat + 1, sc (sd + i * st) ≤ -1) ∨
      (∃ i0, i0 < (⌊(ed - sd) / st⌋).toNat + 1 ∧
        search_best_angle sc sd ed st = (sd + i0 * st, sc (sd + i0 * st)) ∧
        (-1 : ℚ) < sc (sd + i0 * st) ∧
        (∀ i < (⌊(ed - sd) / st⌋).toNat + 1,
          sc (sd + i * st) ≤ sc (sd + i0 * st)) ∧
        ∀ i < i0, sc (sd + i * st) < sc (sd + i0 * st))) := by
  refine ⟨?_, ?_, fun sc sd ed st h1 h2 => search_best_angle_spec sc sd ed st h1 h2⟩
  · intro h
    simp only [deskew_apply]
    rw [if_pos h]
  · intro h
    simp only [deskew_apply]
    rw [if_neg h]

/-- Witness for C7 at the concrete score/rotation/image. -/
theorem C7_deskew_gate_witness :
    deskew_apply rotMark scoreC ⟨1, 1, fun _ _ => 0⟩ =
      rotMark ⟨1, 1, fun _ _ => 0⟩ (deskew_search scoreC).1 :=
  (C7_deskew_gate rotMark scoreC ⟨1, 1, fun _ _ => 0⟩).1 (by
    rw [deskewSearchC]
    exact ⟨by norm_num, by norm_num [scoreC], Or.inr (by norm_num [scoreC])⟩)

/-! ### C9 — adaptive median filter on an even window -/

/-- C9, counterexample to the claim as stated: on the 3×3 image with
samples `x + 3y`, calling the adaptive median filter with the even
max-window 4 does not reject the input — it filters it, changing
pixel (0, 0) from 0 to 1. -/
theorem C9_adaptive_median_counterexample :
    (adaptive_median_filter ⟨3, 3, fun x y => x + 3 * y⟩ 4).pix 0 0 = 1 ∧
    (⟨3, 3, fun x y => x + 3 * y⟩ : ImgN).pix 0 0 = 0 ∧
    adaptive_median_filter ⟨3, 3, fun x y => x + 3 * y⟩ 4 ≠
      ⟨3, 3, fun x y => x + 3 * y⟩ := by
  refine ⟨by decide, rfl, fun h => ?_⟩
  have hp := congrArg (fun i : ImgN => i.pix 0 0) h
  simp only at hp
  rw [show (adaptive_median_filter ⟨3, 3, fun x y => x + 3 * y⟩ 4).pix 0 0 = 1
    from by decide] at hp
  exact absurd hp (by decide)

/-- C9, amended: an even `max_window_size` is not rejected with an
error; the source increments it to the next odd value, so the filter
on an even window equals the filter on the next odd window (and no
call path raises InvalidParameter). -/
theorem C9_adaptive_median_even_window (img : ImgN) (w : ℤ) (hw : w % 2 = 0) :
    adaptive_median_filter img w = adaptive_median_filter img (w + 1) := by
  simp only [adaptive_median_filter]
  rw [show (if (if w < 3 then (3 : ℤ) else w) % 2 = 0
      then (if w < 3 then (3 : ℤ) else w) + 1 else (if w < 3 then (3 : ℤ) else w))
      = (if (if w + 1 < 3 then (3 : ℤ) else w + 1) % 2 = 0
      then (if w + 1 < 3 then (3 : ℤ) else w + 1) + 1
      else (if w + 1 < 3 then (3 : ℤ) else w + 1)) from by
    by_cases h3 : w < 3 <;> by_cases h4 : w + 1 < 3 <;>
      simp [h3, h4] <;> omega]

/-- Witness for C9 at the concrete image and window 4. -/
theorem C9_adaptive_median_even_window_witness :
    adaptive_median_filter ⟨3, 3, fun x y => x + 3 * y⟩ 4 =
      adaptive_median_filter ⟨3, 3, fun x y => x + 3 * y⟩ (4 + 1) :=
  C9_adaptive_median_even_window ⟨3, 3, fun x y => x + 3 * y⟩ 4 (by decide)

/-! ### C6 — separable dilation refines the naive window maximum -/

theorem swmPush_eq (src : ℕ → ℕ) (i : ℕ) :
    ∀ q : List ℕ, swmPush src i q
      = i :: q.dropWhile (fun j => decide (src j ≤ src i)) := by
  intro q
  induction q with
  | nil => rfl
  | cons j rest ih =>
      by_cases h : src j ≤ src i
      · simp [swmPush, List.dropWhile_cons, h, ih]
      · simp [swmPush, List.dropWhile_cons, h]

theorem dropWhile_eq_filter_of_sorted (src : ℕ → ℕ) (i : ℕ) :
    ∀ q : List ℕ, q.Pairwise (fun a b => src a < src b) →
    q.dropWhile (fun j => decide (src j ≤ src i))
      = q.filter (fun j => decide (src i < src j)) := by
  intro q
  induction q with
  | nil => intro _; rfl
  | cons j rest ih =>
      intro hpw
      rcases List.pairwise_cons.mp hpw with ⟨hj, hrest⟩
      by_cases h : src j ≤ src i
      · simp only [List.dropWhile_cons, List.filter_cons]
        rw [if_pos (decide_eq_true h), if_neg (by simp [Nat.not_lt.mpr h])]
        exact ih hrest
      · have h' : src i < src j := Nat.lt_of_not_le h
        simp only [List.dropWhile_cons, List.filter_cons]
        rw [if_neg (by simp [h]), if_pos (decide_eq_true h'),
          List.filter_eq_self.mpr (fun a ha => decide_eq_true (lt_trans h' (hj a ha)))]

theorem getLast_le_of_pairwise :
    ∀ (l : List ℕ), l.Pairwise (fun a b => b < a) →
    ∀ (h : l ≠ []) (j : ℕ), j ∈ l → l.getLast h ≤ j := by
  intro l
  induction l with
  | nil => intro _ h; exact absurd rfl h
  | cons a l ih =>
      intro hpw h j hj
      rcases List.pairwise_cons.mp hpw with ⟨ha, hl⟩
      cases l with
      | nil =>
          rcases List.mem_singleton.mp hj with rfl
          exact le_refl _
      | cons b l' =>
          rw [List.getLast_cons (by simp : (b :: l') ≠ [])]
          rcases List.mem_cons.mp hj with rfl | hj'
          · exact le_of_lt (ha _ (List.getLast_mem _))
          · exact ih hl (by simp) j hj'

theorem mem_dropLast_iff {l : List ℕ} (h : l ≠ []) (hnd : l.Nodup) (j : ℕ) :
    j ∈ l.dropLast ↔ j ∈ l ∧ j ≠ l.getLast h := by
  obtain ⟨l', a, rfl⟩ := (List.eq_nil_or_concat l).resolve_left h
  simp only [List.concat_eq_append] at hnd ⊢
  rw [List.dropLast_concat, List.getLast_append_singleton]
  constructor
  · intro hj
    refine ⟨List.mem_append.mpr (Or.inl hj), ?_⟩
    intro heq
    rcases List.pairwise_append.mp hnd with ⟨_, _, hd⟩
    exact hd j hj a (List.mem_singleton_self a) heq
  · rintro ⟨hj, hne⟩
    rcases List.mem_append.mp hj with hj' | hj'
    · exact hj'
    · exact absurd (List.mem_singleton.mp hj') hne

theorem swm_front_max (src : ℕ → ℕ) (S : Finset ℕ) (q : List ℕ)
    (hpw : q.Pairwise (fun a b => b < a))
    (hmem : ∀ j, j ∈ q ↔ j ∈ S ∧ ∀ j' ∈ S, j < j' → src j' < src j)
    (hS : S.Nonempty) :
    ∃ h : q ≠ [], src (q.getLast h) = S.sup src := by
  have hT : (S.filter (fun j => src j = S.sup src)).Nonempty := by
    obtain ⟨b, hb, hfb⟩ := Finset.exists_mem_eq_sup S hS src
    exact ⟨b, Finset.mem_filter.mpr ⟨hb, hfb.symm⟩⟩
  set T := S.filter (fun j => src j = S.sup src) with hTdef
  set jstar := T.max' hT with hjstar
  have hjT : jstar ∈ T := T.max'_mem hT
  have hjS : jstar ∈ S := (Finset.mem_filter.mp hjT).1
  have hjM : src jstar = S.sup src := (Finset.mem_filter.mp hjT).2
  have hjq : jstar ∈ q := by
    rw [hmem]
    refine ⟨hjS, ?_⟩
    intro j' hj' hlt
    have hle : src j' ≤ S.sup src := Finset.le_sup hj'
    rcases lt_or_eq_of_le hle with hlt' | heq
    · rw [hjM]; exact hlt'
    · exact absurd (T.le_max' j' (Finset.mem_filter.mpr ⟨hj', heq⟩))
        (not_le.mpr hlt)
  have hne : q ≠ [] := List.ne_nil_of_mem hjq
  refine ⟨hne, ?_⟩
  have hfm : q.getLast hne ∈ q := List.getLast_mem hne
  have hfS := (hmem _).mp hfm
  have hle1 : src (q.getLast hne) ≤ S.sup src := Finset.le_sup hfS.1
  have hlej : q.getLast hne ≤ jstar :=
    getLast_le_of_pairwise q hpw hne jstar hjq
  rcases lt_or_eq_of_le hlej with hlt | heq
  · exfalso
    have := hfS.2 jstar hjS hlt
    rw [hjM] at this
    exact absurd hle1 (not_le.mpr this)
  · rw [heq, hjM]

theorem swmPop_spec (src : ℕ → ℕ) (len r m : ℕ) (q : List ℕ)
    (hpw : q.Pairwise (fun a b => b < a))
    (hmem : ∀ j, j ∈ q ↔ (j < len ∧ j + 1 ≤ m ∧ m ≤ j + 2 * r + 1 ∧
      swmSfx src len m j)) :
    (swmPop q m r).Pairwise (fun a b => b < a) ∧
    (∀ j, j ∈ swmPop q m r ↔ (j < len ∧ j + 1 ≤ m ∧ m ≤ j + 2 * r ∧
      swmSfx src len m j)) := by
  rcases List.eq_nil_or_concat q with rfl | ⟨t, f, rfl⟩
  · constructor
    · simp [swmPop]
    · intro j
      simp only [swmPop, List.getLast?_nil]
      constructor
      · intro h; simp at h
      · rintro ⟨h1, h2, h3, h4⟩
        exact absurd ((hmem j).mpr ⟨h1, h2, by omega, h4⟩) (by simp)
  · simp only [List.concat_eq_append] at hpw hmem ⊢
    have hnd : (t ++ [f]).Nodup := hpw.imp (fun h => ne_of_gt h)
    have hne : (t ++ [f]) ≠ [] := by simp
    have hglv : (t ++ [f]).getLast hne = f := List.getLast_append_singleton t
    have hgl : (t ++ [f]).getLast? = some f := by
      rw [List.getLast?_eq_getLast _ hne, hglv]
    have hfmem : f ∈ t ++ [f] := by simp
    obtain ⟨hf1, hf2, hf3, hf4⟩ := (hmem f).mp hfmem
    have hmin : ∀ j ∈ t ++ [f], f ≤ j := by
      intro j hj
      have := getLast_le_of_pairwise (t ++ [f]) hpw hne j hj
      rwa [hglv] at this
    simp only [swmPop, hgl]
    by_cases hexp : (f : ℤ) ≤ (m : ℤ) - (2 * r + 1)
    · have hfexp : f + 2 * r + 1 ≤ m := by omega
      rw [if_pos hexp, List.dropLast_concat]
      constructor
      · exact hpw.sublist (List.sublist_append_left t [f])
      · intro j
        have hmemt : j ∈ t ↔ j ∈ t ++ [f] ∧ j ≠ f := by
          have := mem_dropLast_iff hne hnd j
          rwa [List.dropLast_concat, hglv] at this
        rw [hmemt, hmem j]
        constructor
        · rintro ⟨⟨h1, h2, h3, h4⟩, hjf⟩
          have hfj : f ≤ j := hmin j ((hmem j).mpr ⟨h1, h2, h3, h4⟩)
          exact ⟨h1, h2, by omega, h4⟩
        · rintro ⟨h1, h2, h3, h4⟩
          refine ⟨⟨h1, h2, by omega, h4⟩, ?_⟩
          rintro rfl
          omega
    · rw [if_neg hexp]
      refine ⟨hpw, ?_⟩
      intro j
      rw [hmem j]
      constructor
      · rintro ⟨h1, h2, h3, h4⟩
        have hfj : f ≤ j := hmin j ((hmem j).mpr ⟨h1, h2, h3, h4⟩)
        exact ⟨h1, h2, by omega, h4⟩
      · rintro ⟨h1, h2, h3, h4⟩
        exact ⟨h1, h2, by omega, h4⟩

theorem pairwise_src_of_inv (src : ℕ → ℕ) (len m : ℕ) :
    ∀ (l : List ℕ), l.Pairwise (fun a b => b < a) →
    (∀ j ∈ l, j < len ∧ j + 1 ≤ m ∧ swmSfx src len m j) →
    l.Pairwise (fun a b => src a < src b) := by
  intro l
  induction l with
  | nil => intro _ _; exact List.Pairwise.nil
  | cons a t ih =>
      intro hpw hall
      rcases List.pairwise_cons.mp hpw with ⟨ha, ht⟩
      refine List.pairwise_cons.mpr
        ⟨?_, ih ht (fun j hj => hall j (List.mem_cons_of_mem a hj))⟩
      intro b hb
      obtain ⟨hbl, hbm, hbs⟩ := hall b (List.mem_cons_of_mem a hb)
      obtain ⟨hal, ham, _⟩ := hall a (List.mem_cons_self a t)
      exact hbs a hal ham (ha b hb)

theorem swmPush_spec (src : ℕ → ℕ) (len r m : ℕ) (q1 : List ℕ)
    (hpw : q1.Pairwise (fun a b => b < a))
    (hmem : ∀ j, j ∈ q1 ↔ (j < len ∧ j + 1 ≤ m ∧ m ≤ j + 2 * r ∧
      swmSfx src len m j)) :
    (if m < len then swmPush src m q1 else q1).Pairwise (fun a b => b < a) ∧
    (∀ j, j ∈ (if m < len then swmPush src m q1 else q1) ↔
      (j < len ∧ j + 1 ≤ m + 1 ∧ m + 1 ≤ j + 2 * r + 1 ∧
        swmSfx src len (m + 1) j)) := by
  by_cases hml : m < len
  · simp only [if_pos hml]
    have hvals : q1.Pairwise (fun a b => src a < src b) :=
      pairwise_src_of_inv src len m q1 hpw
        (fun j hj => ⟨((hmem j).mp hj).1, ((hmem j).mp hj).2.1,
          ((hmem j).mp hj).2.2.2⟩)
    rw [swmPush_eq, dropWhile_eq_filter_of_sorted src m q1 hvals]
    constructor
    · refine List.pairwise_cons.mpr ⟨?_, hpw.filter _⟩
      intro b hb
      have := (hmem b).mp (List.mem_of_mem_filter hb)
      omega
    · intro j
      rw [List.mem_cons, List.mem_filter]
      constructor
      · rintro (rfl | ⟨hjq, hflt⟩)
        · refine ⟨hml, by omega, by omega, ?_⟩
          intro j' _ h2 h3
          omega
        · obtain ⟨h1, h2, h3, h4⟩ := (hmem j).mp hjq
          have hm' : src m < src j := of_decide_eq_true hflt
          refine ⟨h1, by omega, by omega, ?_⟩
          intro j' ha hb hc
          rcases Nat.lt_or_ge (j' + 1) (m + 1) with hlt | hge
          · exact h4 j' ha (by omega) hc
          · have hj'm : j' = m := by omega
            exact hj'm ▸ hm'
      · rintro ⟨h1, h2, h3, h4⟩
        by_cases hjm : j = m
        · exact Or.inl hjm
        · refine Or.inr ⟨(hmem j).mpr ⟨h1, by omega, by omega,
            fun j' ha hb hc => h4 j' ha (by omega) hc⟩, ?_⟩
          exact decide_eq_true (h4 m hml (by omega) (by omega))
  · simp only [if_neg hml]
    push_neg at hml
    refine ⟨hpw, ?_⟩
    intro j
    rw [hmem j]
    constructor
    · rintro ⟨h1, h2, h3, h4⟩
      exact ⟨h1, by omega, by omega, fun j' ha hb hc => h4 j' ha (by omega) hc⟩
    · rintro ⟨h1, h2, h3, h4⟩
      exact ⟨h1, by omega, by omega, fun j' ha hb hc => h4 j' ha (by omega) hc⟩

theorem swmStep_inv (src : ℕ → ℕ) (len r m : ℕ) (s : List ℕ × (ℕ → ℕ))
    (hinv : SwmInv src len r m s) :
    SwmInv src len r (m + 1) (swmStep src len r s m) := by
  obtain ⟨q, dst⟩ := s
  obtain ⟨hpw, hmem, hdst⟩ := hinv
  obtain ⟨hpw1, hmem1⟩ := swmPop_spec src len r m q hpw hmem
  obtain ⟨hpw2, hmem2⟩ := swmPush_spec src len r m (swmPop q m r) hpw1 hmem1
  show SwmInv src len r (m + 1)
    (if m < len then swmPush src m (swmPop q m r) else swmPop q m r,
      if r ≤ m ∧ m - r < len then
        match (if m < len then swmPush src m (swmPop q m r)
            else swmPop q m r).getLast? with
        | some j => Function.update dst (m - r) (src j)
        | none => dst
      else dst)
  refine ⟨hpw2, hmem2, ?_⟩
  intro c hc hcm
  rcases Nat.lt_or_ge (c + r + 1) (m + 1) with hlt | hge
  · have hold := hdst c hc (by omega)
    by_cases hw : r ≤ m ∧ m - r < len
    · cases hq2l : (if m < len then swmPush src m (swmPop q m r)
          else swmPop q m r).getLast? with
      | none => simpa [hw, hq2l] using hold
      | some j =>
          simp only [hw, and_self, if_true, hq2l]
          rw [Function.update_noteq (show c ≠ m - r by omega)]
          exact hold
    · simpa [hw] using hold
  · have hceq : c + r = m := by omega
    have hw : r ≤ m ∧ m - r < len := by omega
    have hSne : (Finset.Icc (c - r) (min (c + r) (len - 1))).Nonempty :=
      ⟨c, Finset.mem_Icc.mpr (by omega)⟩
    have hSmem : ∀ j, j ∈ (if m < len then swmPush src m (swmPop q m r)
        else swmPop q m r) ↔
        j ∈ Finset.Icc (c - r) (min (c + r) (len - 1)) ∧
        ∀ j' ∈ Finset.Icc (c - r) (min (c + r) (len - 1)),
          j < j' → src j' < src j := by
      intro j
      rw [hmem2 j]
      constructor
      · rintro ⟨h1, h2, h3, h4⟩
        refine ⟨Finset.mem_Icc.mpr (by omega), ?_⟩
        intro j' hj' hlt
        have hj'' := Finset.mem_Icc.mp hj'
        exact h4 j' (by omega) (by omega) hlt
      · rintro ⟨hjS, hsfx⟩
        have hj' := Finset.mem_Icc.mp hjS
        refine ⟨by omega, by omega, by omega, ?_⟩
        intro j' ha hb hcj
        exact hsfx j' (Finset.mem_Icc.mpr (by omega)) hcj
    obtain ⟨hq2ne, hfront⟩ := swm_front_max src _ _ hpw2 hSmem hSne
    have hcr : m - r = c := by omega
    rw [if_pos hw, List.getLast?_eq_getLast _ hq2ne]
    show Function.update dst (m - r)
        (src ((if m < len then swmPush src m (swmPop q m r)
          else swmPop q m r).getLast hq2ne)) c = winMax1D src len r c
    rw [hcr, Function.update_same, hfront]
    unfold winMax1D
    rfl

theorem swm_fold_inv (src dst0 : ℕ → ℕ) (len r : ℕ) :
    ∀ n : ℕ, SwmInv src len r n
      ((List.range n).foldl (swmStep src len r) ([], dst0)) := by
  intro n
  induction n with
  | zero =>
      refine ⟨List.Pairwise.nil, ?_, ?_⟩
      · intro j
        constructor
        · intro hj
          exact absurd hj (List.not_mem_nil j)
        · rintro ⟨_, h2, _, _⟩
          omega
      · intro c _ hcm
        omega
  | succ n ih =>
      rw [List.range_succ, List.foldl_append, List.foldl_cons, List.foldl_nil]
      exact swmStep_inv src len r n _ ih

theorem sliding_window_max_correct (src dst0 : ℕ → ℕ) (len r c : ℕ)
    (hc : c < len) :
    sliding_window_max src dst0 len r c = winMax1D src len r c := by
  have h := swm_fold_inv src dst0 len r (len + r)
  exact h.2.2 c hc (by omega)

/-- C6: for kernel size `k ≤ 1` `dilation_square` leaves the image
unchanged, and for odd `k ≥ 3` the two deque-based 1-D
sliding-window-max passes (horizontal then vertical) set every
in-range pixel to the maximum input sample over the k×k window centred
on it, clipped to the image bounds. -/
theorem C6_dilation_square (img : ImgN) (k : ℤ) :
    (k ≤ 1 → dilation_square img k = img) ∧
    (3 ≤ k → k % 2 = 1 → ∀ x, x < img.W → ∀ y, y < img.H →
      (dilation_square img k).pix x y = winMax2D img (k / 2).toNat x y) := by
  constructor
  · intro hk
    unfold dilation_square
    rw [if_pos hk]
  · intro hk3 _ x hx y hy
    unfold dilation_square
    rw [if_neg (by omega)]
    show sliding_window_max
        (fun j => sliding_window_max (fun i => img.pix i j)
          (fun i => img.pix i j) img.W (k / 2).toNat x)
        (fun j => img.pix x j) img.H (k / 2).toNat y
      = winMax2D img (k / 2).toNat x y
    rw [sliding_window_max_correct _ _ _ _ y hy]
    unfold winMax1D
    rw [Finset.sup_congr rfl (fun j _ =>
      sliding_window_max_correct (fun i => img.pix i j)
        (fun i => img.pix i j) img.W ((k / 2).toNat) x hx)]
    unfold winMax1D winMax2D
    rw [Finset.sup_product_right]

/-- Closed witness for C6 on the 5×5 impulse image with kernel 3 and,
for the identity part, kernel 1. -/
theorem C6_dilation_square_witness :
    ((3 : ℤ) ≤ 3 ∧ (3 : ℤ) % 2 = 1 ∧ 2 < 5 ∧ 1 < 5 ∧
      (dilation_square ⟨5, 5, fun x y => if x = 2 ∧ y = 2 then 7 else 0⟩
        3).pix 2 1
        = winMax2D ⟨5, 5, fun x y => if x = 2 ∧ y = 2 then 7 else 0⟩
            ((3 : ℤ) / 2).toNat 2 1) ∧
    ((1 : ℤ) ≤ 1 ∧
      dilation_square ⟨5, 5, fun x y => if x = 2 ∧ y = 2 then 7 else 0⟩ 1
        = ⟨5, 5, fun x y => if x = 2 ∧ y = 2 then 7 else 0⟩) :=
  ⟨⟨by decide, by decide, by decide, by decide,
    (C6_dilation_square ⟨5, 5, fun x y => if x = 2 ∧ y = 2 then 7 else 0⟩
      3).2 (by decide) (by decide) 2 (by decide) 1 (by decide)⟩,
   ⟨by decide,
    (C6_dilation_square ⟨5, 5, fun x y => if x = 2 ∧ y = 2 then 7 else 0⟩
      1).1 (by decide)⟩⟩

end ITE
